import Mathlib

/-!
Verification of the PiliPili_Backend streaming server.

This file gives a shallow embedding, in Lean 4, of the parts of the Go
source that the specification's claims are about:

* the HTTP Range parser and the 416 / window computation of `Stream`
  (src/streamer/streamer.go),
* the response status / header computation of `streamFullFile` and
  `streamPartialFile`,
* the byte-emitting core `streamFile` (content-cache serve, seek decision,
  read/write loop),
* the reference-counted file-handle cache (`getFileFromCacheOrOpen`,
  `openAndCacheFile`, the release defer, the Stat-error purge),
* the HMAC-SHA256 signature service (`Signature.Encrypt` / `Signature.Decrypt`)
  together with models of the Go standard library pieces it uses
  (`encoding/json`, `encoding/base64`, `crypto/sha256`, `crypto/hmac`,
  UTF-8 encoding, and the decimal-to-float64 conversion performed by
  `encoding/json` when decoding numbers into `interface{}`),
* the request handler `authenticate` / `Remote`.

Go `int64` values are modelled as `Int` (no arithmetic in the modelled code
comes near the 64-bit boundary except where an explicit range check is part
of the source, which is modelled explicitly).  Go byte slices are modelled
as `List Nat` (each element < 256), Go strings as `List Char` (i.e. valid
Unicode; Go strings reaching this code are query parameters and JSON text).
Machine floating point appears only as the value of a decoded JSON number;
it is modelled exactly, as a canonical pair (mantissa, exponent) produced by
a correctly-rounding decimal-to-binary64 conversion, with its mathematical
value in `ℚ` used in statements.
-/

namespace PiliPili

/-- Go `strings.SplitN(s, sep, 2)` for a one-character separator: split at the
first occurrence of the separator; `none` when the separator does not occur
(in which case Go returns a one-element slice). -/
def splitFirst (sep : Char) : List Char → Option (List Char × List Char)
  | [] => none
  | c :: r =>
    if c = sep then some ([], r)
    else
      match splitFirst sep r with
      | none => none
      | some (a, b) => some (c :: a, b)

/-- Accumulating decimal-digit scan used by the model of `strconv.ParseInt`:
returns the value of the digit string, or `none` on the first non-digit. -/
def decDigitsValAux : Nat → List Char → Option Nat
  | acc, [] => some acc
  | acc, c :: r =>
    if c.isDigit then decDigitsValAux (acc * 10 + (c.toNat - 48)) r else none

/-- Go `strconv.ParseInt(s, 10, 64)`: optional sign, at least one decimal
digit, error (`none`) on an empty string, on any non-digit character, and on
overflow past the int64 range. -/
def goParseInt64 (s : List Char) : Option Int :=
  match s with
  | [] => none
  | c :: rest =>
    let neg : Bool := c = '-'
    let digits := if c = '-' ∨ c = '+' then rest else s
    match digits, decDigitsValAux 0 digits with
    | [], _ => none
    | _ :: _, none => none
    | _ :: _, some n =>
      let v : Int := if neg then -(n : Int) else (n : Int)
      if v < -(2 ^ 63) ∨ 2 ^ 63 ≤ v then none else some v

/-- End position computed by `parseRangeHeader` before the final clamp: the
second range part, snapped to `fileSize - 1` when empty, unparsable, or
smaller than the start. -/
def rangeEndRaw (fileSize s : Int) (p1 : List Char) : Int :=
  if p1 = [] then fileSize - 1
  else
    match goParseInt64 p1 with
    | none => fileSize - 1
    | some e1 => if e1 < s then fileSize - 1 else e1

/-- Model of `parseRangeHeader` (src/streamer/streamer.go lines 457–510).
The header value is a character list; `[]` models an absent header (gin's
`GetHeader` returns `""` then).  The result `none` models the
index-out-of-range panic on `rangeParts[1]` that occurs when the range spec
after `bytes=` contains no `-`. -/
def parseRangeHeader (rangeHeader : List Char) (fileSize : Int) :
    Option (Int × Int) :=
  if rangeHeader = [] then some (0, fileSize - 1)
  else
    match splitFirst '=' rangeHeader with
    | none => some (0, fileSize - 1)
    | some (r0, spec) =>
      if r0 ≠ "bytes".toList then some (0, fileSize - 1)
      else
        match splitFirst '-' spec with
        | none => none
        | some (p0, p1) =>
          match goParseInt64 p0 with
          | none => some (0, fileSize - 1)
          | some s =>
            if s < 0 then some (0, fileSize - 1)
            else
              let e0 : Int := rangeEndRaw fileSize s p1
              let e2 : Int := if fileSize ≤ e0 then fileSize - 1 else e0
              some (s, e2)

/-- Outcome of the window computation in `Stream` before any bytes move. -/
inductive WindowResult
  | notSatisfiableStart
  | notSatisfiableEnd
  | window (start endPos : Int)
  | panicked
deriving DecidableEq

/-- Model of the post-parse window computation and the two 416 checks in
`Stream` (src/streamer/streamer.go lines 252–278). -/
def streamWindow (rangeHeader : List Char) (fileSize : Int) : WindowResult :=
  match parseRangeHeader rangeHeader fileSize with
  | none => .panicked
  | some (s, e) =>
    if fileSize ≤ s then .notSatisfiableStart
    else
      let e2 := if fileSize ≤ e then fileSize - 1 else e
      if e2 < s then .notSatisfiableEnd
      else .window s e2

/-- ASCII lower-casing of one character; `strings.ToLower` restricted to the
ASCII range, which covers every suffix in the content-type table. -/
def asciiToLower (c : Char) : Char :=
  if 'A' ≤ c ∧ c ≤ 'Z' then Char.ofNat (c.toNat + 32) else c

/-- Go `strings.HasSuffix`. -/
def hasSuffix (suf s : List Char) : Bool := List.isSuffixOf suf s

/-- Model of `getFileContentType` (src/streamer/streamer.go lines 762–804):
lower-case the file name, then match extensions in source order. -/
def getFileContentType (fileName : List Char) : List Char :=
  let name := fileName.map asciiToLower
  if hasSuffix ".mp4".toList name then "video/mp4".toList
  else if hasSuffix ".mkv".toList name then "video/x-matroska".toList
  else if hasSuffix ".avi".toList name then "video/x-msvideo".toList
  else if hasSuffix ".mov".toList name then "video/quicktime".toList
  else if hasSuffix ".flv".toList name then "video/x-flv".toList
  else if hasSuffix ".rmvb".toList name then "application/vnd.rn-realmedia-vbr".toList
  else if hasSuffix ".rm".toList name then "application/vnd.rn-realmedia".toList
  else if hasSuffix ".mka".toList name then "audio/x-matroska".toList
  else if hasSuffix ".aac".toList name then "audio/aac".toList
  else if hasSuffix ".mp3".toList name then "audio/mpeg".toList
  else if hasSuffix ".wav".toList name then "audio/wav".toList
  else if hasSuffix ".ogg".toList name then "audio/ogg".toList
  else if hasSuffix ".srt".toList name then "application/x-subrip".toList
  else if hasSuffix ".vtt".toList name then "text/vtt".toList
  else if hasSuffix ".ass".toList name then "text/x-ssa".toList
  else if hasSuffix ".jpg".toList name ∨ hasSuffix ".jpeg".toList name then "image/jpeg".toList
  else if hasSuffix ".png".toList name then "image/png".toList
  else if hasSuffix ".gif".toList name then "image/gif".toList
  else "application/octet-stream".toList

/-- Status and headers of a served (200/206) response. -/
structure RespMeta where
  status : Nat
  contentType : List Char
  contentLength : Int
  contentRange : Option (Int × Int × Int)
  acceptRanges : Bool
deriving DecidableEq

/-- Model of the response status and headers produced by `Stream`'s dispatch
into `streamFullFile` / `streamPartialFile` (src/streamer/streamer.go lines
280–287 and 512–565).  In gin, `Context.Status` only records the code and
headers stay mutable until the first flush, so every `Set` in these two
functions reaches the wire.  Returns `none` when the request is not served
(the 416 paths and the parser panic). -/
def serveMeta (rangeHeader : List Char) (fileSize : Int) (fileName : List Char) :
    Option RespMeta :=
  match streamWindow rangeHeader fileSize with
  | .window s e =>
    let ct := getFileContentType fileName
    if s = 0 ∧ e = fileSize - 1 then
      if rangeHeader ≠ [] ∨ s ≠ 0 ∨ e ≠ fileSize - 1 then
        some ⟨206, ct, e - s + 1, some (s, e, fileSize), true⟩
      else
        some ⟨200, ct, fileSize, none, true⟩
    else
      some ⟨206, ct, e - s + 1, some (s, e, fileSize), true⟩
  | _ => none

/-- Decimal digits of a natural number, accumulator form; the first argument
is fuel (the value itself suffices, as the value shrinks tenfold each step). -/
def natDecAux : Nat → Nat → List Char → List Char
  | 0, _, acc => acc
  | fuel + 1, n, acc =>
    let acc' := Char.ofNat (48 + n % 10) :: acc
    if n < 10 then acc' else natDecAux fuel (n / 10) acc'

/-- Decimal representation of a natural number (Go `strconv.AppendInt` for
non-negative input). -/
def natDecChars (n : Nat) : List Char := natDecAux (n + 1) n []

/-- Decimal representation of an integer (Go `strconv.AppendInt`, and Go
`fmt.Sprintf` with `%d`). -/
def intDecChars (i : Int) : List Char :=
  if i < 0 then '-' :: natDecChars i.natAbs else natDecChars i.toNat

/-- Gin response-writer model.  `pending` is the mutable header map;
`wireStatus`/`wireHeaders` are the status line and the snapshot of the header
map actually transmitted, fixed at the moment the headers are written
(net/http: changing the header map after `WriteHeader` has no effect). -/
structure GinWriter where
  pending : List (List Char × List Char)
  wireStatus : Option Nat
  wireHeaders : List (List Char × List Char)
  body : List Nat
deriving DecidableEq

/-- The response writer before anything is written. -/
def GinWriter.init : GinWriter := ⟨[], none, [], []⟩

/-- Header lookup. -/
def headersGet (hs : List (List Char × List Char)) (k : List Char) :
    Option (List Char) :=
  (hs.find? (fun p => p.1 = k)).map (fun p => p.2)

/-- Set a header in the mutable header map (`c.Writer.Header().Set`). -/
def GinWriter.setHeader (w : GinWriter) (k v : List Char) : GinWriter :=
  ⟨(k, v) :: w.pending.filter (fun p => ¬ p.1 = k), w.wireStatus, w.wireHeaders, w.body⟩

/-- Write the status line and the current header map to the wire, once
(gin `ResponseWriter.WriteHeaderNow`). -/
def GinWriter.writeHeaderNow (w : GinWriter) (status : Nat) : GinWriter :=
  match w.wireStatus with
  | some _ => w
  | none => ⟨w.pending, some status, w.pending, w.body⟩

/-- Model of gin's `Context.AbortWithStatus`: it records the status and
immediately writes the header (gin: `Status`, `Writer.WriteHeaderNow`,
`Abort`). -/
def GinWriter.abortWithStatus (w : GinWriter) (status : Nat) : GinWriter :=
  w.writeHeaderNow status

/-- Model of the first 416 branch of `Stream` (src/streamer/streamer.go lines
254–264), reached when the parsed start is at or past the file size: it calls
`c.AbortWithStatus(416)` and only afterwards sets `Content-Range`. -/
def stream416Branch (w : GinWriter) (fileSize : Int) : GinWriter :=
  let w1 := w.abortWithStatus 416
  w1.setHeader ("Content-Range".toList) ("bytes */".toList ++ intDecChars fileSize)

/-- The substring `file[a..b]` of a byte list (both bounds inclusive), the
byte sequence the specification expects a stream with window `(a, b)` to
emit. -/
def fileSlice (file : List Nat) (a b : Int) : List Nat :=
  (file.drop a.toNat).take (b - a + 1).toNat

/-- Model of one `file.Read` of up to `n` bytes with the handle at offset
`pos`: returns `min (requested, available)` bytes; an empty result is EOF. -/
def readAt (file : List Nat) (pos : Int) (n : Int) : List Nat :=
  (file.drop pos.toNat).take n.toNat

/-- Model of the read/write loop of `streamFile` (src/streamer/streamer.go
lines 676–742): reads of up to `bufferSize` bytes (capped at the remaining
count) advance the handle offset; a read returning no bytes (EOF) ends the
loop.  The first argument is fuel; the loop runs at most `remaining`
iterations since every continuing read moves at least one byte. -/
def readLoopAux (file : List Nat) (bufferSize : Int) :
    Nat → Int → Int → List Nat
  | 0, _, _ => []
  | fuel + 1, pos, remaining =>
    if remaining ≤ 0 then []
    else
      let readSize := if remaining < bufferSize then remaining else bufferSize
      let chunk := readAt file pos readSize
      if chunk.length = 0 then []
      else
        chunk ++
          readLoopAux file bufferSize fuel (pos + chunk.length) (remaining - chunk.length)

/-- Seek decision plus read loop of `streamFile` (src/streamer/streamer.go
lines 658–742).  The code seeks to `currentOffset` only when
`bytesRemaining > 0 && currentOffset > 0`; otherwise the handle stays at
whatever offset it already had (`handlePos`). -/
def seekAndRead (file : List Nat) (handlePos bufferSize currentOffset bytesRemaining : Int) :
    List Nat :=
  let pos := if 0 < bytesRemaining ∧ 0 < currentOffset then currentOffset else handlePos
  readLoopAux file bufferSize bytesRemaining.toNat pos bytesRemaining

/-- Model of `streamFile` (src/streamer/streamer.go lines 569–760) on an
error-free run.  `file` is the on-disk contents, `handlePos` the handle's
current offset when `streamFile` begins (a cached handle keeps the offset
left behind by the previous stream), `cache` the content-cache entry for the
path, if any.  Returns the byte sequence written to the response. -/
def streamFile (file : List Nat) (handlePos : Int) (cache : Option (List Nat))
    (start endPos : Int) : List Nat :=
  let bufferSize : Int := if start ≠ 0 then 4 * 1024 * 1024 else 2 * 1024 * 1024
  let bytesRemaining := endPos - start + 1
  match cache with
  | some cached =>
    if start < (cached.length : Int) then
      let cacheServeEnd : Int :=
        if endPos < (cached.length : Int) - 1 then endPos else (cached.length : Int) - 1
      let cacheServeLength := cacheServeEnd - start + 1
      if 0 < cacheServeLength then
        let served := (cached.drop start.toNat).take cacheServeLength.toNat
        if bytesRemaining - cacheServeLength = 0 then served
        else
          served ++
            seekAndRead file handlePos bufferSize (start + cacheServeLength)
              (bytesRemaining - cacheServeLength)
      else seekAndRead file handlePos bufferSize start bytesRemaining
    else seekAndRead file handlePos bufferSize start bytesRemaining
  | none => seekAndRead file handlePos bufferSize start bytesRemaining

/-! ## File-handle cache, content cache, and per-path mutex map -/

/-- `maxCachedFiles` (src/streamer/streamer.go line 51). -/
def maxCachedFiles : Nat := 200

/-- `fileCacheEntryTTL` (src/streamer/streamer.go line 57), in nanoseconds. -/
def fileCacheEntryTTL : Int := 600000000000

/-- One `fileEntry` of the file-handle cache: the identity of the open handle
(standing for the `*os.File` pointer), the reference count, and the
`lastUsed` stamp in nanoseconds. -/
structure FileEntry where
  fileId : Nat
  refCount : Int
  lastUsed : Int
deriving DecidableEq

/-- Global state: the file-handle cache map (`fileCache.cache`, as an
association list in iteration order), the per-path mutex map (`fileMu`,
modelled by its key set — execution is sequential), the content cache
(`contentCache.cache`, modelled by its key set: the cached bytes never
matter to the cache-shape claims), and a counter producing distinct handle
identities for `os.Open`.  Paths are numbered. -/
structure CacheState where
  entries : List (Nat × FileEntry)
  mutexes : List Nat
  content : List Nat
  nextId : Nat
deriving DecidableEq

/-- The initial state: empty maps. -/
def CacheState.empty : CacheState := ⟨[], [], [], 0⟩

/-- Association-list lookup (Go map read). -/
def lookupA (l : List (Nat × FileEntry)) (k : Nat) : Option FileEntry :=
  (l.find? (fun p => p.1 = k)).map (fun p => p.2)

/-- Association-list removal (Go `delete`). -/
def removeA (l : List (Nat × FileEntry)) (k : Nat) : List (Nat × FileEntry) :=
  l.filter (fun p => ¬ p.1 = k)

/-- Association-list update of one key's entry. -/
def updateA (l : List (Nat × FileEntry)) (k : Nat) (f : FileEntry → FileEntry) :
    List (Nat × FileEntry) :=
  l.map (fun p => if p.1 = k then (p.1, f p.2) else p)

/-- The LRU scan in `getFileFromCacheOrOpen` (src/streamer/streamer.go lines
317–326): the entry with `refCount == 0` and strictly smallest `lastUsed`,
earliest in iteration order on ties. -/
def findLRU (l : List (Nat × FileEntry)) : Option (Nat × FileEntry) :=
  l.foldl
    (fun acc pe =>
      match acc with
      | none => if pe.2.refCount = 0 then some pe else none
      | some a =>
        if pe.2.refCount = 0 ∧ pe.2.lastUsed < a.2.lastUsed then some pe else acc)
    none

/-- `preloadFileContent` (src/streamer/streamer.go lines 143–166): inserts a
content-cache entry for the path unless one exists. -/
def preload (s : CacheState) (path : Nat) : CacheState :=
  if path ∈ s.content then s
  else ⟨s.entries, s.mutexes, s.content ++ [path], s.nextId⟩

/-- Eviction of one path (src/streamer/streamer.go lines 344–361): close the
handle, delete the cache entry, the per-path mutex, and the content-cache
entry. -/
def evictPath (s : CacheState) (path : Nat) : CacheState :=
  ⟨removeA s.entries path, s.mutexes.filter (fun q => ¬ q = path),
    s.content.filter (fun q => ¬ q = path), s.nextId⟩

/-- Model of `openAndCacheFile` (src/streamer/streamer.go lines 408–455):
open (always succeeds; a fresh handle identity is drawn), preload the content
cache synchronously, then — unless another goroutine raced the insertion,
which sequentially can still be the case if the path reappeared — insert a
fresh entry with `refCount = 1`.  Returns (state, handle id, cached flag). -/
def openAndCacheFile (s : CacheState) (path : Nat) (now : Int) :
    CacheState × Nat × Bool :=
  let fid := s.nextId
  let s1 := preload ⟨s.entries, s.mutexes, s.content, s.nextId + 1⟩ path
  match lookupA s1.entries path with
  | some e =>
    (⟨updateA s1.entries path (fun e0 => ⟨e0.fileId, e0.refCount + 1, e0.lastUsed⟩),
        s1.mutexes, s1.content, s1.nextId⟩,
      e.fileId, true)
  | none =>
    (⟨s1.entries ++ [(path, ⟨fid, 1, now⟩)], s1.mutexes, s1.content, s1.nextId⟩,
      fid, true)

/-- Model of `getFileFromCacheOrOpen` (src/streamer/streamer.go lines
292–403), sequential execution.  On a hit the refcount is incremented.  On a
miss at capacity, the LRU scan picks a `refCount == 0` victim; the eviction
re-check then also demands that the victim's age exceed the TTL — when the
re-check fails nothing is evicted — and in either case the requested file is
then opened and cached.  When no victim exists at all, the file is opened
uncached (`cached = false`). -/
def getFileFromCacheOrOpen (s : CacheState) (path : Nat) (now : Int) :
    CacheState × Nat × Bool :=
  match lookupA s.entries path with
  | some e =>
    (⟨updateA s.entries path (fun e0 => ⟨e0.fileId, e0.refCount + 1, e0.lastUsed⟩),
        s.mutexes, s.content, s.nextId⟩,
      e.fileId, true)
  | none =>
    if maxCachedFiles ≤ s.entries.length then
      match findLRU s.entries with
      | some lru =>
        let s1 :=
          if lru.1 ∈ s.mutexes then
            match lookupA s.entries lru.1 with
            | some cur =>
              if cur = lru.2 ∧ cur.refCount = 0 ∧
                  fileCacheEntryTTL < now - cur.lastUsed then
                evictPath s lru.1
              else s
            | none => s
          else ⟨removeA s.entries lru.1, s.mutexes, s.content, s.nextId⟩
        openAndCacheFile s1 path now
      | none =>
        (⟨s.entries, s.mutexes, s.content, s.nextId + 1⟩, s.nextId, false)
    else openAndCacheFile s path now

/-- Model of the release defer in `Stream` (src/streamer/streamer.go lines
199–217): if the path still maps to this very handle, decrement the
refcount; stamp `lastUsed` when it reaches 0; clamp (and log) a negative
transition back to 0. -/
def releaseFile (s : CacheState) (path fid : Nat) (now : Int) : CacheState :=
  match lookupA s.entries path with
  | some e =>
    if e.fileId = fid then
      let rc := e.refCount - 1
      let e' : FileEntry :=
        if rc = 0 then ⟨e.fileId, 0, now⟩
        else if rc < 0 then ⟨e.fileId, 0, e.lastUsed⟩
        else ⟨e.fileId, rc, e.lastUsed⟩
      ⟨updateA s.entries path (fun _ => e'), s.mutexes, s.content, s.nextId⟩
    else s
  | none => s

/-- `fileMu.LoadOrStore` at the top of `Stream` (src/streamer/streamer.go
line 179). -/
def ensureMutex (s : CacheState) (path : Nat) : CacheState :=
  if path ∈ s.mutexes then s
  else ⟨s.entries, s.mutexes ++ [path], s.content, s.nextId⟩

/-- Model of `Stream`'s Stat-error path (src/streamer/streamer.go lines
219–242): when `file.Stat()` fails on the handle just acquired, the cached
entry for the path (when it is this very handle) is closed and deleted from
the file cache and from the mutex map, and the handler aborts with 500.  The
content cache is not touched on this path. -/
def statErrorPurge (s : CacheState) (path fid : Nat) : CacheState × Nat :=
  match lookupA s.entries path with
  | some e =>
    if e.fileId = fid then
      (⟨removeA s.entries path, s.mutexes.filter (fun q => ¬ q = path),
          s.content, s.nextId⟩,
        500)
    else (s, 500)
  | none => (s, 500)

/-- One sequential acquire/stream/release cycle of `Stream` on `path` at time
`now`: create the per-path mutex if needed, acquire the handle, stream, then
run the release defer (cached handle) or close the uncached handle. -/
def streamCycle (s : CacheState) (path : Nat) (now : Int) : CacheState :=
  let s0 := ensureMutex s path
  match getFileFromCacheOrOpen s0 path now with
  | (s1, fid, true) => releaseFile s1 path fid now
  | (s1, _, false) => s1

/-- `n` sequential cycles on `n` distinct paths `0, 1, …, n-1`, all within
the 10-minute TTL window (every event at time 0). -/
def runCycles : Nat → CacheState
  | 0 => CacheState.empty
  | n + 1 => streamCycle (runCycles n) n 0

/-- The cache entry created by the `i`-th cycle of `runCycles` after its
release: handle id `i`, refcount 0, `lastUsed` 0. -/
def cycleEntry (i : Nat) : Nat × FileEntry := (i, ⟨i, 0, 0⟩)

/-- An arbitrary sequential history of cache operations. -/
inductive CacheOp
  | acq (path : Nat) (now : Int)
  | rel (path fid : Nat) (now : Int)

/-- Run a history of acquire/release calls from the empty state. -/
def runOps (ops : List CacheOp) : CacheState :=
  ops.foldl
    (fun s op =>
      match op with
      | .acq p t => (getFileFromCacheOrOpen (ensureMutex s p) p t).1
      | .rel p f t => releaseFile s p f t)
    CacheState.empty

/-! ## UTF-8 (Go strings are UTF-8 byte sequences) -/

/-- UTF-8 encoding of one Unicode scalar value, arithmetic form. -/
def utf8EncodeChar (c : Char) : List Nat :=
  let n := c.toNat
  if n < 0x80 then [n]
  else if n < 0x800 then [0xC0 + n / 64, 0x80 + n % 64]
  else if n < 0x10000 then
    [0xE0 + n / 4096, 0x80 + n / 64 % 64, 0x80 + n % 64]
  else
    [0xF0 + n / 262144, 0x80 + n / 4096 % 64, 0x80 + n / 64 % 64, 0x80 + n % 64]

/-- UTF-8 encoding of a character sequence (a Go string's bytes). -/
def utf8Encode : List Char → List Nat
  | [] => []
  | c :: cs => utf8EncodeChar c ++ utf8Encode cs

/-- Decode one UTF-8 sequence from the front: strict (truncated sequences,
overlong encodings, surrogates, and out-of-range values rejected).  A
successful step consumes between one and four bytes. -/
def utf8Step : List Nat → Option (Char × List Nat)
  | [] => none
  | b0 :: rest =>
    if b0 < 0x80 then some (Char.ofNat b0, rest)
    else if b0 < 0xC2 then none
    else if b0 < 0xE0 then
      match rest with
      | b1 :: rest1 =>
        if 0x80 ≤ b1 ∧ b1 < 0xC0 then
          some (Char.ofNat ((b0 - 0xC0) * 64 + (b1 - 0x80)), rest1)
        else none
      | [] => none
    else if b0 < 0xF0 then
      match rest with
      | b1 :: b2 :: rest2 =>
        if 0x80 ≤ b1 ∧ b1 < 0xC0 ∧ 0x80 ≤ b2 ∧ b2 < 0xC0 then
          let v := (b0 - 0xE0) * 4096 + (b1 - 0x80) * 64 + (b2 - 0x80)
          if 0x800 ≤ v ∧ ¬ (0xD800 ≤ v ∧ v < 0xE000) then some (Char.ofNat v, rest2)
          else none
        else none
      | _ => none
    else if b0 < 0xF5 then
      match rest with
      | b1 :: b2 :: b3 :: rest3 =>
        if 0x80 ≤ b1 ∧ b1 < 0xC0 ∧ 0x80 ≤ b2 ∧ b2 < 0xC0 ∧ 0x80 ≤ b3 ∧ b3 < 0xC0 then
          let v := (b0 - 0xF0) * 262144 + (b1 - 0x80) * 4096 + (b2 - 0x80) * 64 + (b3 - 0x80)
          if 0x10000 ≤ v ∧ v < 0x110000 then some (Char.ofNat v, rest3)
          else none
        else none
      | _ => none
    else none

/-- Drive `utf8Step` over the whole byte sequence; the fuel only bounds the
step count (each step consumes at least one byte, so the length always
suffices). -/
def utf8DecodeAux : Nat → List Nat → Option (List Char)
  | _, [] => some []
  | 0, _ :: _ => none
  | fuel + 1, b0 :: rest =>
    match utf8Step (b0 :: rest) with
    | none => none
    | some (c, rest2) =>
      match utf8DecodeAux fuel rest2 with
      | none => none
      | some cs => some (c :: cs)

/-- Strict UTF-8 decoding of a whole byte sequence. -/
def utf8Decode (bs : List Nat) : Option (List Char) := utf8DecodeAux bs.length bs

/-! ## Base64 (Go `encoding/base64` StdEncoding, as used by the signature
service) -/

/-- The standard base64 alphabet. -/
def b64Char (n : Nat) : Char :=
  if n < 26 then Char.ofNat (65 + n)
  else if n < 52 then Char.ofNat (97 + (n - 26))
  else if n < 62 then Char.ofNat (48 + (n - 52))
  else if n = 62 then '+'
  else '/'

/-- Inverse of the alphabet; `none` for characters outside it. -/
def b64Index (c : Char) : Option Nat :=
  if 'A' ≤ c ∧ c ≤ 'Z' then some (c.toNat - 65)
  else if 'a' ≤ c ∧ c ≤ 'z' then some (c.toNat - 97 + 26)
  else if '0' ≤ c ∧ c ≤ '9' then some (c.toNat - 48 + 52)
  else if c = '+' then some 62
  else if c = '/' then some 63
  else none

/-- `base64.StdEncoding.EncodeToString`. -/
def b64Encode : List Nat → List Char
  | [] => []
  | [b0] => [b64Char (b0 / 4), b64Char (b0 % 4 * 16), '=', '=']
  | [b0, b1] =>
    [b64Char (b0 / 4), b64Char (b0 % 4 * 16 + b1 / 16), b64Char (b1 % 16 * 4), '=']
  | b0 :: b1 :: b2 :: rest =>
    b64Char (b0 / 4) :: b64Char (b0 % 4 * 16 + b1 / 16) ::
      b64Char (b1 % 16 * 4 + b2 / 64) :: b64Char (b2 % 64) :: b64Encode rest

/-- `base64.StdEncoding.DecodeString`: quanta of four characters, padding
only in the final quantum; invalid characters and lengths rejected (the
default decoder does not reject non-zero trailing bits, and CR/LF skipping
is not modelled — no reachable input contains them). -/
def b64Decode : List Char → Option (List Nat)
  | [] => some []
  | c0 :: c1 :: c2 :: c3 :: rest =>
    match b64Index c0, b64Index c1 with
    | some i0, some i1 =>
      if c2 = '=' ∧ c3 = '=' ∧ rest = [] then some [i0 * 4 + i1 / 16]
      else
        match b64Index c2 with
        | some i2 =>
          if c3 = '=' ∧ rest = [] then
            some [i0 * 4 + i1 / 16, i1 % 16 * 16 + i2 / 4]
          else
            match b64Index c3 with
            | some i3 =>
              match b64Decode rest with
              | none => none
              | some bs =>
                some ((i0 * 4 + i1 / 16) :: (i1 % 16 * 16 + i2 / 4) ::
                  (i2 % 4 * 64 + i3) :: bs)
            | none => none
        | none => none
    | _, _ => none
  | _ => none

/-! ## SHA-256 and HMAC (Go `crypto/sha256`, `crypto/hmac`) -/

/-- Right rotation of a 32-bit word, arithmetic form. -/
def rotr32 (x n : Nat) : Nat := (x / 2 ^ n + x % 2 ^ n * 2 ^ (32 - n)) % 2 ^ 32

/-- The SHA-256 round constants. -/
def sha256K : List Nat :=
  [1116352408, 1899447441, 3049323471, 3921009573, 961987163, 1508970993,
   2453635748, 2870763221, 3624381080, 310598401, 607225278, 1426881987,
   1925078388, 2162078206, 2614888103, 3248222580, 3835390401, 4022224774,
   264347078, 604807628, 770255983, 1249150122, 1555081692, 1996064986,
   2554220882, 2821834349, 2952996808, 3210313671, 3336571891, 3584528711,
   113926993, 338241895, 666307205, 773529912, 1294757372, 1396182291,
   1695183700, 1986661051, 2177026350, 2456956037, 2730485921, 2820302411,
   3259730800, 3345764771, 3516065817, 3600352804, 4094571909, 275423344,
   430227734, 506948616, 659060556, 883997877, 958139571, 1322822218,
   1537002063, 1747873779, 1955562222, 2024104815, 2227730452, 2361852424,
   2428436474, 2756734187, 3204031479, 3329325298]

/-- One compression round on the 8-word state. -/
def sha256Step (wk : Nat) (st : List Nat) : List Nat :=
  match st with
  | [a, b, c, d, e, f, g, h] =>
    let s1 := rotr32 e 6 ^^^ rotr32 e 11 ^^^ rotr32 e 25
    let ch := (e &&& f) ^^^ ((0xFFFFFFFF ^^^ e) &&& g)
    let t1 := (h + s1 + ch + wk) % 2 ^ 32
    let s0 := rotr32 a 2 ^^^ rotr32 a 13 ^^^ rotr32 a 22
    let maj := (a &&& b) ^^^ (a &&& c) ^^^ (b &&& c)
    let t2 := (s0 + maj) % 2 ^ 32
    [(t1 + t2) % 2 ^ 32, a, b, c, (d + t1) % 2 ^ 32, e, f, g]
  | _ => st

/-- Message-schedule extension of a 16-word block to 64 words. -/
def sha256Schedule (block : List Nat) : List Nat :=
  (List.range 48).foldl
    (fun w _ =>
      let n := w.length
      let s0x := w.getD (n - 15) 0
      let s0 := rotr32 s0x 7 ^^^ rotr32 s0x 18 ^^^ s0x / 2 ^ 3
      let s1x := w.getD (n - 2) 0
      let s1 := rotr32 s1x 17 ^^^ rotr32 s1x 19 ^^^ s1x / 2 ^ 10
      w ++ [(w.getD (n - 16) 0 + s0 + w.getD (n - 7) 0 + s1) % 2 ^ 32])
    block

/-- Split into 64-byte blocks (fuel-based; fuel at least the length). -/
def chunks64 : Nat → List Nat → List (List Nat)
  | 0, _ => []
  | _, [] => []
  | fuel + 1, l => l.take 64 :: chunks64 fuel (l.drop 64)

/-- SHA-256 padding: a 0x80 byte, zeros to 56 mod 64, the bit length as a
big-endian 64-bit integer. -/
def sha256Pad (msg : List Nat) : List Nat :=
  let len := msg.length
  let zeros := (119 - len % 64) % 64
  let bitLen := len * 8
  msg ++ [0x80] ++ List.replicate zeros 0 ++
    [bitLen / 2 ^ 56 % 256, bitLen / 2 ^ 48 % 256, bitLen / 2 ^ 40 % 256,
     bitLen / 2 ^ 32 % 256, bitLen / 2 ^ 24 % 256, bitLen / 2 ^ 16 % 256,
     bitLen / 2 ^ 8 % 256, bitLen % 256]

/-- The 16 big-endian words of one 64-byte block. -/
def blockWords (block : List Nat) : List Nat :=
  (List.range 16).map
    (fun i =>
      block.getD (4 * i) 0 * 2 ^ 24 + block.getD (4 * i + 1) 0 * 2 ^ 16 +
        block.getD (4 * i + 2) 0 * 2 ^ 8 + block.getD (4 * i + 3) 0)

/-- SHA-256 of a byte sequence, as 32 bytes. -/
def sha256 (msg : List Nat) : List Nat :=
  let padded := sha256Pad msg
  let final :=
    (chunks64 padded.length padded).foldl
      (fun h block =>
        let w := sha256Schedule (blockWords block)
        let st := (w.zip sha256K).foldl
          (fun st p => sha256Step ((p.1 + p.2) % 2 ^ 32) st) h
        List.zipWith (fun x y => (x + y) % 2 ^ 32) h st)
      [1779033703, 3144134277, 1013904242, 2773480762,
       1359893119, 2600822924, 528734635, 1541459225]
  final.foldr
    (fun wd acc =>
      wd / 2 ^ 24 % 256 :: wd / 2 ^ 16 % 256 :: wd / 2 ^ 8 % 256 :: wd % 256 :: acc)
    []

/-- HMAC-SHA256 (Go `hmac.New(sha256.New, key)` with `Write`/`Sum`). -/
def hmacSha256 (key msg : List Nat) : List Nat :=
  let k1 := if 64 < key.length then sha256 key else key
  let k2 := k1 ++ List.replicate (64 - k1.length) 0
  sha256 ((k2.map (fun b => b ^^^ 0x5c)) ++
    sha256 ((k2.map (fun b => b ^^^ 0x36)) ++ msg))

/-! ## IEEE-754 binary64 values and the decimal conversion performed by
`encoding/json` when decoding numbers into `interface{}` -/

/-- Bit length, accumulator-free fuel form (any fuel at least the value is
enough; the recursion halves the value each step). -/
def bitsAux : Nat → Nat → Nat
  | 0, _ => 0
  | fuel + 1, n => if n = 0 then 0 else bitsAux fuel (n / 2) + 1

/-- Number of binary digits of a natural number (`bits 0 = 0`). -/
def bits (n : Nat) : Nat := bitsAux (n + 1) n

/-- The exact value of an IEEE-754 binary64 number: `m * 2 ^ e`.  Values are
produced only by the correctly-rounding conversions below, so the mantissa
magnitude never exceeds `2 ^ 53`. -/
structure F64 where
  m : Int
  e : Int
deriving DecidableEq

/-- The mathematical value of a binary64 number. -/
def F64.val (f : F64) : ℚ := (f.m : ℚ) * (2 : ℚ) ^ f.e

/-- Round a natural number to the nearest binary64 (ties to even), as
mantissa and exponent; `none` on overflow past the binary64 range (Go
`strconv.ParseFloat` range error, which `encoding/json` surfaces as a decode
error). -/
def roundNatF64 (n : Nat) : Option (Nat × Int) :=
  let b := bits n
  if b ≤ 53 then some (n, 0)
  else
    let e := b - 53
    let q := n / 2 ^ e
    let r := n % 2 ^ e
    let half := 2 ^ (e - 1)
    let m := if half < r ∨ (r = half ∧ q % 2 = 1) then q + 1 else q
    if 1024 < bits m + e then none else some (m, (e : Int))

/-- One scaled division step for rational rounding: the quotient and
remainder of `p / (d * 2 ^ e)` with the remainder relative to the effective
denominator (returned third). -/
def scaledQR (p d : Nat) (e : Int) : Nat × Nat × Nat :=
  if 0 ≤ e then (p / (d * 2 ^ e.toNat), p % (d * 2 ^ e.toNat), d * 2 ^ e.toNat)
  else (p * 2 ^ (-e).toNat / d, p * 2 ^ (-e).toNat % d, d)

/-- Find the exponent `e` with `2 ^ 52 ≤ p / (d * 2 ^ e) < 2 ^ 53` (clamped
at the subnormal limit), starting from a bit-length estimate and adjusting;
the fuel bounds the adjustment steps. -/
def findExp : Nat → Nat → Nat → Int → Int
  | 0, _, _, e => e
  | fuel + 1, p, d, e =>
    let q := (scaledQR p d e).1
    if 2 ^ 53 ≤ q then findExp fuel p d (e + 1)
    else if q < 2 ^ 52 ∧ -1074 < e then findExp fuel p d (e - 1)
    else e

/-- Round the positive rational `p / 10 ^ k` (`p ≥ 1`, `k ≥ 1`) to the
nearest binary64 (ties to even); `none` on overflow. -/
def roundRatF64 (p k : Nat) : Option (Nat × Int) :=
  let d := 10 ^ k
  let e0 : Int := (bits p : Int) - (bits d : Int) - 53
  let e := findExp (4 * k + 130) p d (max e0 (-1074))
  let qrd := scaledQR p d e
  let q := qrd.1
  let r := qrd.2.1
  let den := qrd.2.2
  let m := if den < 2 * r ∨ (2 * r = den ∧ q % 2 = 1) then q + 1 else q
  if 1024 < (bits m : Int) + e then none else some (m, e)

/-- Go `strconv.ParseFloat(s, 64)` on a decoded decimal
`± intfrac * 10 ^ pow10`, correctly rounded to binary64; `none` models the
range error on overflow.  Values below 10^-400 of the smallest magnitude
round to zero. -/
def decimalToF64 (neg : Bool) (intfrac : Nat) (pow10 : Int) : Option F64 :=
  if intfrac = 0 then some ⟨0, 0⟩
  else if 400 < pow10 then none
  else if pow10 + ((natDecChars intfrac).length : Int) < -400 then some ⟨0, 0⟩
  else
    let rounded :=
      if 0 ≤ pow10 then roundNatF64 (intfrac * 10 ^ pow10.toNat)
      else roundRatF64 intfrac (-pow10).toNat
    match rounded with
    | none => none
    | some (m, ex) => some ⟨if neg then -(m : Int) else (m : Int), ex⟩

/-- The float64 a Go `interface{}`-decode produces for the integer `e` (the
decimal formatting of `e` parsed back through `ParseFloat`). -/
def f64OfInt (e : Int) : F64 :=
  match decimalToF64 (decide (e < 0)) e.natAbs 0 with
  | some f => f
  | none => ⟨0, 0⟩

/-! ## JSON values, Go `encoding/json` marshalling and parsing -/

/-- JSON values as decoded into Go `interface{}`: strings, float64 numbers,
booleans, null, arrays, and objects (as association lists in source
order; Go map semantics make later duplicate keys win at lookup). -/
inductive JValue where
  | jstr : List Char → JValue
  | jnum : F64 → JValue
  | jbool : Bool → JValue
  | jnull : JValue
  | jarr : List JValue → JValue
  | jobj : List (List Char × JValue) → JValue

/-- Opening brace character. -/
def lbrace : Char := Char.ofNat 123

/-- Closing brace character. -/
def rbrace : Char := Char.ofNat 125

/-- Lower-case hexadecimal digit. -/
def hexDigit (n : Nat) : Char :=
  if n < 10 then Char.ofNat (48 + n) else Char.ofNat (87 + n)

/-- Go `encoding/json` string escaping (with HTML escaping, the default for
`json.Marshal`): quote, backslash, newline, carriage return and tab get
two-character escapes, other control characters and `<`, `>`, `&` become
`\u00xx`, U+2028/U+2029 become `
`/`
`, everything else is
emitted verbatim. -/
def escapeChar (c : Char) : List Char :=
  if c = '"' then ['\\', '"']
  else if c = '\\' then ['\\', '\\']
  else if c = Char.ofNat 10 then ['\\', 'n']
  else if c = Char.ofNat 13 then ['\\', 'r']
  else if c = Char.ofNat 9 then ['\\', 't']
  else if c.toNat < 0x20 ∨ c = '<' ∨ c = '>' ∨ c = '&' then
    ['\\', 'u', '0', '0', hexDigit (c.toNat / 16), hexDigit (c.toNat % 16)]
  else if c.toNat = 0x2028 then ['\\', 'u', '2', '0', '2', '8']
  else if c.toNat = 0x2029 then ['\\', 'u', '2', '0', '2', '9']
  else [c]

/-- Escape every character of a string. -/
def escapeChars : List Char → List Char
  | [] => []
  | c :: cs => escapeChar c ++ escapeChars cs

/-- A marshalled JSON string literal. -/
def encodeJString (s : List Char) : List Char := '"' :: (escapeChars s ++ ['"'])

/-- Go `json.Marshal` of the map built by `Signature.Encrypt`
(src/unnamed/part_000 lines 50–57): Go marshals maps with keys in sorted
order — `expireAt` < `itemId` < `mediaId` — and an `int64` value in plain
decimal. -/
def marshalSigData (itemId mediaId : List Char) (expireAt : Int) : List Char :=
  lbrace ::
    (encodeJString "expireAt".toList ++ [':'] ++ intDecChars expireAt ++ [','] ++
      encodeJString "itemId".toList ++ [':'] ++ encodeJString itemId ++ [','] ++
      encodeJString "mediaId".toList ++ [':'] ++ encodeJString mediaId ++ [rbrace])

/-- Go `json.Marshal` of the payload map (src/unnamed/part_000 lines 68–71):
keys sorted, `data` < `signature`, both values strings. -/
def marshalPayload (dataB64 sigB64 : List Char) : List Char :=
  lbrace ::
    (encodeJString "data".toList ++ [':'] ++ encodeJString dataB64 ++ [','] ++
      encodeJString "signature".toList ++ [':'] ++ encodeJString sigB64 ++ [rbrace])

/-- JSON whitespace skipping. -/
def skipWs : List Char → List Char
  | [] => []
  | c :: r =>
    if c = ' ' ∨ c = Char.ofNat 9 ∨ c = Char.ofNat 10 ∨ c = Char.ofNat 13 then skipWs r
    else c :: r

/-- Hexadecimal digit value. -/
def hexVal (c : Char) : Option Nat :=
  if '0' ≤ c ∧ c ≤ '9' then some (c.toNat - 48)
  else if 'a' ≤ c ∧ c ≤ 'f' then some (c.toNat - 87)
  else if 'A' ≤ c ∧ c ≤ 'F' then some (c.toNat - 55)
  else none

/-- One scanning step of Go's `encoding/json` string-literal decoder:
`some (none, rest)` when the closing quote is reached, `some (some ch, rest)`
when one character was decoded (two-character escapes, `\uXXXX` with UTF-16
surrogate pairs; an unpaired surrogate becomes U+FFFD, as in Go's
`unquote`), `none` on malformed input (raw control characters, bad escapes,
end of input).  Every successful step consumes at least one character. -/
def jstrStep : List Char → Option (Option Char × List Char)
  | [] => none
  | c :: rest =>
    if c = '"' then some (none, rest)
    else if c = '\\' then
      match rest with
      | [] => none
      | e :: rest1 =>
        if e = '"' then some (some '"', rest1)
        else if e = '\\' then some (some '\\', rest1)
        else if e = '/' then some (some '/', rest1)
        else if e = 'b' then some (some (Char.ofNat 8), rest1)
        else if e = 'f' then some (some (Char.ofNat 12), rest1)
        else if e = 'n' then some (some (Char.ofNat 10), rest1)
        else if e = 'r' then some (some (Char.ofNat 13), rest1)
        else if e = 't' then some (some (Char.ofNat 9), rest1)
        else if e = 'u' then
          match rest1 with
          | h1 :: h2 :: h3 :: h4 :: rest2 =>
            match hexVal h1, hexVal h2, hexVal h3, hexVal h4 with
            | some v1, some v2, some v3, some v4 =>
              let v := v1 * 4096 + v2 * 256 + v3 * 16 + v4
              if 0xD800 ≤ v ∧ v < 0xDC00 then
                match rest2 with
                | e1 :: e2 :: h5 :: h6 :: h7 :: h8 :: rest3 =>
                  if e1 = '\\' ∧ e2 = 'u' then
                    match hexVal h5, hexVal h6, hexVal h7, hexVal h8 with
                    | some w1, some w2, some w3, some w4 =>
                      let w := w1 * 4096 + w2 * 256 + w3 * 16 + w4
                      if 0xDC00 ≤ w ∧ w < 0xE000 then
                        some (some (Char.ofNat (0x10000 + (v - 0xD800) * 1024 + (w - 0xDC00))),
                          rest3)
                      else some (some (Char.ofNat 0xFFFD), rest2)
                    | _, _, _, _ => some (some (Char.ofNat 0xFFFD), rest2)
                  else some (some (Char.ofNat 0xFFFD), rest2)
                | _ => some (some (Char.ofNat 0xFFFD), rest2)
              else if 0xDC00 ≤ v ∧ v < 0xE000 then
                some (some (Char.ofNat 0xFFFD), rest2)
              else some (some (Char.ofNat v), rest2)
            | _, _, _, _ => none
          | _ => none
        else none
    else if c.toNat < 0x20 then none
    else some (some c, rest)

/-- Drive `jstrStep` until the closing quote; the fuel only bounds the step
count (each step consumes at least one character, so the remaining length
plus one always suffices). -/
def parseJStringAux : Nat → List Char → List Char → Option (List Char × List Char)
  | 0, _, _ => none
  | fuel + 1, acc, l =>
    match jstrStep l with
    | none => none
    | some (none, rest) => some (acc.reverse, rest)
    | some (some ch, rest) => parseJStringAux fuel (ch :: acc) rest

/-- A whole string literal, cursor just past the opening quote. -/
def parseJString (l : List Char) : Option (List Char × List Char) :=
  parseJStringAux (l.length + 1) [] l

/-- Take the maximal run of decimal digits. -/
def takeDigits : List Char → List Char × List Char
  | [] => ([], [])
  | c :: r =>
    if c.isDigit then
      let p := takeDigits r
      (c :: p.1, p.2)
    else ([], c :: r)

/-- Value of a validated digit string. -/
def digitsVal (l : List Char) : Nat :=
  l.foldl (fun a c => a * 10 + (c.toNat - 48)) 0

/-- Fraction and exponent of a JSON number token, after the integer part:
`(\.[0-9]+)? ([eE][+-]?[0-9]+)?`, yielding the combined significand and the
power of ten, then converting per `ParseFloat`. -/
def parseJNumberTail (neg : Bool) (ip : Nat) (s : List Char) :
    Option (F64 × List Char) :=
  let fr : Option (Nat × Int × List Char) :=
    match s with
    | '.' :: r =>
      match takeDigits r with
      | ([], _) => none
      | (fs, rest) => some (ip * 10 ^ fs.length + digitsVal fs, -(fs.length : Int), rest)
    | _ => some (ip, 0, s)
  match fr with
  | none => none
  | some (intfrac, pow10f, s1) =>
    let ex : Option (Int × List Char) :=
      match s1 with
      | c :: r =>
        if c = 'e' ∨ c = 'E' then
          match r with
          | c2 :: r2 =>
            if c2 = '+' then
              (match takeDigits r2 with
               | ([], _) => none
               | (ds, rest) => some ((digitsVal ds : Int), rest))
            else if c2 = '-' then
              (match takeDigits r2 with
               | ([], _) => none
               | (ds, rest) => some (-(digitsVal ds : Int), rest))
            else
              (match takeDigits r with
               | ([], _) => none
               | (ds, rest) => some ((digitsVal ds : Int), rest))
          | [] => none
        else some (0, s1)
      | [] => some (0, s1)
    match ex with
    | none => none
    | some (expv, s2) =>
      match decimalToF64 neg intfrac (pow10f + expv) with
      | none => none
      | some f => some (f, s2)

/-- A JSON number token per the strict grammar Go enforces
(`-? (0 | [1-9][0-9]*) (\.[0-9]+)? ([eE][+-]?[0-9]+)?`), decoded to float64
as `encoding/json` does for `interface{}` targets. -/
def parseJNumber (s : List Char) : Option (F64 × List Char) :=
  let sn : Bool × List Char :=
    match s with
    | '-' :: r => (true, r)
    | _ => (false, s)
  match sn.2 with
  | [] => none
  | c :: r =>
    if c = '0' then
      match r with
      | c2 :: _ =>
        if c2.isDigit then none else parseJNumberTail sn.1 0 r
      | [] => parseJNumberTail sn.1 0 r
    else if c.isDigit then
      match takeDigits r with
      | (ds, rest) => parseJNumberTail sn.1 (digitsVal (c :: ds)) rest
    else none

mutual

/-- One JSON value (Go `encoding/json` grammar), fuel-bounded: the fuel
shrinks on every nesting and member step, so twice the input length plus a
constant always suffices. -/
def parseJValue : Nat → List Char → Option (JValue × List Char)
  | 0, _ => none
  | fuel + 1, s =>
    match skipWs s with
    | [] => none
    | c :: r =>
      if c = '"' then
        match parseJString r with
        | none => none
        | some (str, rest) => some (.jstr str, rest)
      else if c = lbrace then parseJMembers fuel (skipWs r) true
      else if c = '[' then parseJElems fuel (skipWs r) true
      else if c = 't' then
        match r with
        | 'r' :: 'u' :: 'e' :: rest => some (.jbool true, rest)
        | _ => none
      else if c = 'f' then
        match r with
        | 'a' :: 'l' :: 's' :: 'e' :: rest => some (.jbool false, rest)
        | _ => none
      else if c = 'n' then
        match r with
        | 'u' :: 'l' :: 'l' :: rest => some (.jnull, rest)
        | _ => none
      else if c = '-' ∨ c.isDigit then
        match parseJNumber (c :: r) with
        | none => none
        | some (f, rest) => some (.jnum f, rest)
      else none

/-- Object members, cursor just past `{` (whitespace skipped); the flag is
true before the first member (only then may `}` follow immediately). -/
def parseJMembers : Nat → List Char → Bool → Option (JValue × List Char)
  | 0, _, _ => none
  | fuel + 1, s, isFirst =>
    match s with
    | [] => none
    | c :: r =>
      if c = rbrace ∧ isFirst then some (.jobj [], r)
      else if c = '"' then
        match parseJString r with
        | none => none
        | some (key, rest1) =>
          match skipWs rest1 with
          | ':' :: rest2 =>
            match parseJValue fuel rest2 with
            | none => none
            | some (v, rest3) =>
              match skipWs rest3 with
              | ',' :: rest4 =>
                (match parseJMembers fuel (skipWs rest4) false with
                 | some (.jobj ms, rest5) => some (.jobj ((key, v) :: ms), rest5)
                 | _ => none)
              | c2 :: rest4 =>
                if c2 = rbrace then some (.jobj [(key, v)], rest4) else none
              | [] => none
          | _ => none
      else none

/-- Array elements, cursor just past `[` (whitespace skipped). -/
def parseJElems : Nat → List Char → Bool → Option (JValue × List Char)
  | 0, _, _ => none
  | fuel + 1, s, isFirst =>
    match s with
    | [] => none
    | c :: r =>
      if c = ']' ∧ isFirst then some (.jarr [], r)
      else
        match parseJValue fuel s with
        | none => none
        | some (v, rest) =>
          match skipWs rest with
          | ',' :: rest2 =>
            (match parseJElems fuel (skipWs rest2) false with
             | some (.jarr vs, rest3) => some (.jarr (v :: vs), rest3)
             | _ => none)
          | c2 :: rest2 => if c2 = ']' then some (.jarr [v], rest2) else none
          | [] => none

end

/-- Go `json.Unmarshal` of a complete byte buffer into `interface{}`: decode
UTF-8, parse one JSON value, require only whitespace afterwards. -/
def unmarshalJSON (bytes : List Nat) : Option JValue :=
  match utf8Decode bytes with
  | none => none
  | some text =>
    match parseJValue (2 * text.length + 2) text with
    | none => none
    | some (v, rest) => if skipWs rest = [] then some v else none

/-- Conversion of decoded members for a `map[string]string` target: every
member value must be a string. -/
def toStringPairs : List (List Char × JValue) → Option (List (List Char × List Char))
  | [] => some []
  | (k, .jstr v) :: rest =>
    (match toStringPairs rest with
     | none => none
     | some ps => some ((k, v) :: ps))
  | _ => none

/-- Go `json.Unmarshal` into `map[string]string` (Decrypt's payload): the
top-level value must be an object of strings. -/
def unmarshalStringMap (bytes : List Nat) : Option (List (List Char × List Char)) :=
  match unmarshalJSON bytes with
  | some (.jobj ms) => toStringPairs ms
  | _ => none

/-- Go map read with the zero value `""` for a missing key; later duplicate
keys overwrite earlier ones. -/
def mapGetD (ps : List (List Char × List Char)) (k : List Char) : List Char :=
  match ps.reverse.find? (fun p => p.1 = k) with
  | some p => p.2
  | none => []

/-- Go map read on a decoded `map[string]interface{}`. -/
def objGet (ms : List (List Char × JValue)) (k : List Char) : Option JValue :=
  match ms.reverse.find? (fun p => p.1 = k) with
  | some p => some p.2
  | none => none

/-! ## The signature service and the request handler -/

/-- `Signature.Encrypt` (src/unnamed/part_000 lines 48–81): marshal the data
map, HMAC-SHA256 the JSON bytes, wrap both base64 strings in the payload
object, marshal it, base64 the result.  (`json.Marshal` cannot fail on
these maps, so no error case arises.) -/
def sigEncrypt (key : List Nat) (itemId mediaId : List Char) (expireAt : Int) :
    List Char :=
  let jsonData := utf8Encode (marshalSigData itemId mediaId expireAt)
  let signature := hmacSha256 key jsonData
  let payloadJson := utf8Encode (marshalPayload (b64Encode jsonData) (b64Encode signature))
  b64Encode payloadJson

/-- `Signature.Decrypt` (src/unnamed/part_000 lines 85–123): base64-decode
the token, unmarshal the payload into `map[string]string`, base64-decode its
`data` and `signature` fields, verify the recomputed HMAC, and unmarshal the
data into `map[string]interface{}`.  `none` for every error return. -/
def sigDecrypt (key : List Nat) (ciphertext : List Char) :
    Option (List (List Char × JValue)) :=
  match b64Decode ciphertext with
  | none => none
  | some payloadJson =>
    match unmarshalStringMap payloadJson with
    | none => none
    | some payload =>
      match b64Decode (mapGetD payload "data".toList) with
      | none => none
      | some jsonData =>
        match b64Decode (mapGetD payload "signature".toList) with
        | none => none
        | some signature =>
          if signature = hmacSha256 key jsonData then
            match unmarshalJSON jsonData with
            | some (.jobj ms) => some ms
            | _ => none
          else none

/-- Outcome of `authenticate`: a 401 with an error message, or success with
the validated fields. -/
inductive AuthResult where
  | unauthorized : List Char → AuthResult
  | ok : List Char → List Char → Int → AuthResult
deriving DecidableEq

/-- Go conversion `int64(f)` of a float64: truncation toward zero. -/
def F64.toInt64 (f : F64) : Int :=
  if 0 ≤ f.e then f.m * 2 ^ f.e.toNat else Int.tdiv f.m (2 ^ (-f.e).toNat)

/-- Type assertion `.(string)` on a Go map read. -/
def asString : Option JValue → Option (List Char)
  | some (.jstr s) => some s
  | _ => none

/-- Type assertion `.(float64)` on a Go map read (numbers decoded into
`interface{}` are float64). -/
def asNumber : Option JValue → Option F64
  | some (.jnum f) => some f
  | _ => none

/-- The field-validation and expiry logic of `authenticate`
(src/unnamed/part_000 lines 308–336) after a successful decrypt.  `nowNs`
is `time.Now()` in nanoseconds since the epoch;
`time.Unix(sec, 0).Before(now)` is `sec * 1e9 < nowNs`. -/
def authValidate (data : List (List Char × JValue)) (nowNs : Int) : AuthResult :=
  match asString (objGet data "itemId".toList),
      asString (objGet data "mediaId".toList),
      asNumber (objGet data "expireAt".toList) with
  | some itemId, some mediaId, some expf =>
    if itemId = [] then .unauthorized "itemId is empty".toList
    else if mediaId = [] then .unauthorized "mediaId is empty".toList
    else if expf.toInt64 * 1000000000 < nowNs then
      .unauthorized "Signature has expired".toList
    else .ok itemId mediaId expf.toInt64
  | _, _, _ => .unauthorized "Invalid signature structure".toList

/-- `authenticate` (src/unnamed/part_000 lines 292–337), with the signature
instance initialized: decrypt, then validate.  Decrypt failure yields the
401 message `Invalid signature`. -/
def authenticate (key : List Nat) (signature : List Char) (nowNs : Int) :
    AuthResult :=
  match sigDecrypt key signature with
  | none => .unauthorized "Invalid signature".toList
  | some data => authValidate data nowNs

/-- Whether `Remote` (src/unnamed/part_000 lines 263–289) reaches the
`Stream` call: it does exactly when `authenticate` succeeds; on any
authentication error it answers 401 and returns first. -/
def remoteInvokesStream (key : List Nat) (signature : List Char) (nowNs : Int) :
    Bool :=
  match authenticate key signature nowNs with
  | .ok _ _ _ => true
  | .unauthorized _ => false

/-! ## Theorems about the range parser, the response headers, and the
stream engine core -/

/-- Case split on the pre-clamp end position: it is either the snap value
`fileSize - 1` or a parsed value at least the start. -/
theorem rangeEndRaw_cases (S s : Int) (p1 : List Char) :
    rangeEndRaw S s p1 = S - 1 ∨ s ≤ rangeEndRaw S s p1 := by
  unfold rangeEndRaw
  repeat' split
  all_goals omega

/-- Shape of every non-panicking `parseRangeHeader` result: the start is
non-negative, the end is at most `fileSize - 1`, and either the window is
well-ordered or the start is at/past `fileSize` and the end was snapped to
`fileSize - 1`. -/
theorem parseRangeHeader_shape (h : List Char) (S a b : Int)
    (hp : parseRangeHeader h S = some (a, b)) :
    0 ≤ a ∧ b ≤ S - 1 ∧ (a ≤ b ∨ (S ≤ a ∧ b = S - 1)) := by
  unfold parseRangeHeader at hp
  simp only [] at hp
  repeat' split at hp
  all_goals simp only [Option.some.injEq, Prod.mk.injEq, reduceCtorEq] at hp
  all_goals (try obtain ⟨rfl, rfl⟩ := hp)
  all_goals try omega
  all_goals rename_i p0 p1 hsplit2 xx e1 hparse hneg hclamp
  all_goals rcases rangeEndRaw_cases S e1 p1 with hE | hE
  all_goals omega

/-- C4 counterexample: the header `bytes=5-` against file size 3 parses to
`(5, 2)`, which neither satisfies `0 ≤ start ≤ end ≤ fileSize - 1` nor is
the fall-back-to-full result `(0, fileSize - 1)`. -/
theorem parseRangeHeader_start_past_eof_unclamped :
    parseRangeHeader ("bytes=5-".toList) 3 = some (5, 2) ∧
      ¬((0 : Int) ≤ 5 ∧ (5 : Int) ≤ 2 ∧ (2 : Int) ≤ 3 - 1) ∧
      ((5 : Int), (2 : Int)) ≠ ((0 : Int), 3 - 1) := by decide

/-- C4 amended: every result `(a, b)` of the range parser has `0 ≤ a` and
`b ≤ S - 1`, and either `a ≤ b`, or the parsed start lies at or past the
file size and the end was snapped to `S - 1` (the parser leaves a start
beyond EOF unclamped for the handler's 416 check; a spec without `-` yields
no result at all, modelling the `rangeParts[1]` panic). -/
theorem parseRangeHeader_bounds (h : List Char) (S a b : Int)
    (hp : parseRangeHeader h S = some (a, b)) :
    0 ≤ a ∧ b ≤ S - 1 ∧ (a ≤ b ∨ (S ≤ a ∧ b = S - 1)) :=
  parseRangeHeader_shape h S a b hp

/-- Witness for the amended C4 theorem at the header `bytes=1-2`, size 10. -/
theorem parseRangeHeader_bounds_witness :
    parseRangeHeader ("bytes=1-2".toList) 10 = some (1, 2) ∧
      (0 ≤ (1 : Int) ∧ (2 : Int) ≤ 10 - 1 ∧
        ((1 : Int) ≤ 2 ∨ ((10 : Int) ≤ 1 ∧ (2 : Int) = 10 - 1))) :=
  ⟨by decide, parseRangeHeader_bounds ("bytes=1-2".toList) 10 1 2 (by decide)⟩

/-- C10: whenever the range parser returns `(a, b)` with `a < fileSize`, the
window is well-formed (`a ≤ b ≤ fileSize - 1`) and `Stream`'s window
computation reaches the serving branch — the second 416 branch (end before
start after adjustment) is unreachable for any request that passes the
`start < fileSize` check. -/
theorem parseRangeHeader_start_lt_size_wellformed (h : List Char) (S a b : Int)
    (hp : parseRangeHeader h S = some (a, b)) (hlt : a < S) :
    a ≤ b ∧ b ≤ S - 1 ∧ streamWindow h S = .window a b := by
  obtain ⟨h0, hb, hd⟩ := parseRangeHeader_shape h S a b hp
  have hab : a ≤ b := by omega
  refine ⟨hab, hb, ?_⟩
  unfold streamWindow
  rw [hp]
  simp only []
  rw [if_neg (by omega : ¬ S ≤ a)]
  rw [if_neg (by omega : ¬ S ≤ b)]
  rw [if_neg (by omega : ¬ b < a)]

/-- Witness for the C10 theorem at the header `bytes=1-2`, size 10. -/
theorem parseRangeHeader_start_lt_size_wellformed_witness :
    (parseRangeHeader ("bytes=1-2".toList) 10 = some (1, 2) ∧ (1 : Int) < 10) ∧
      ((1 : Int) ≤ 2 ∧ (2 : Int) ≤ 10 - 1 ∧
        streamWindow ("bytes=1-2".toList) 10 = .window 1 2) :=
  ⟨⟨by decide, by decide⟩,
    parseRangeHeader_start_lt_size_wellformed ("bytes=1-2".toList) 10 1 2
      (by decide) (by decide)⟩

/-- C5: a served response has status 200 exactly when the computed window is
the whole file and no Range header was sent, and then `Content-Length` is the
file size; in every other served case the status is 206 with
`Content-Length = end - start + 1` and a `Content-Range` triple; the content
type comes from the extension table and `Accept-Ranges: bytes` is always
set. -/
theorem serveMeta_status_headers (h : List Char) (S : Int) (name : List Char)
    (m : RespMeta) (hs : serveMeta h S name = some m) :
    ∃ a b, streamWindow h S = .window a b ∧
      (m.status = 200 ↔ (a = 0 ∧ b = S - 1 ∧ h = [])) ∧
      (m.status = 200 → m.contentLength = S ∧ m.contentRange = none) ∧
      (m.status ≠ 200 →
        m.status = 206 ∧ m.contentLength = b - a + 1 ∧
          m.contentRange = some (a, b, S)) ∧
      m.contentType = getFileContentType name ∧ m.acceptRanges = true := by
  unfold serveMeta at hs
  split at hs
  case h_1 s e heq =>
    refine ⟨s, e, heq, ?_⟩
    split at hs
    · split at hs
      · cases hs
        rename_i hfull hne
        simp_all
      · cases hs
        rename_i hfull hne
        simp_all
    · cases hs
      rename_i hnotfull
      simp_all
  case h_2 hne => cases hs

/-- Witness for the C5 theorem: a request with no Range header for a 4-byte
`.mp4` file. -/
theorem serveMeta_status_headers_witness :
    serveMeta [] 4 ("a.mp4".toList) =
        some ⟨200, "video/mp4".toList, 4, none, true⟩ ∧
      (∃ a b, streamWindow ([] : List Char) 4 = .window a b ∧
        ((200 : Nat) = 200 ↔ (a = 0 ∧ b = 4 - 1 ∧ ([] : List Char) = [])) ∧
        ((200 : Nat) = 200 →
          (⟨200, "video/mp4".toList, 4, none, true⟩ : RespMeta).contentLength = 4 ∧
            (⟨200, "video/mp4".toList, 4, none, true⟩ : RespMeta).contentRange = none) ∧
        ((200 : Nat) ≠ 200 →
          (200 : Nat) = 206 ∧
            (⟨200, "video/mp4".toList, 4, none, true⟩ : RespMeta).contentLength = b - a + 1 ∧
            (⟨200, "video/mp4".toList, 4, none, true⟩ : RespMeta).contentRange = some (a, b, 4)) ∧
        (⟨200, "video/mp4".toList, 4, none, true⟩ : RespMeta).contentType =
            getFileContentType ("a.mp4".toList) ∧
        (⟨200, "video/mp4".toList, 4, none, true⟩ : RespMeta).acceptRanges = true) :=
  ⟨by decide,
    serveMeta_status_headers [] 4 ("a.mp4".toList)
      ⟨200, "video/mp4".toList, 4, none, true⟩ (by decide)⟩

/-- C6: on a request whose start lies past EOF (`bytes=20000000-` against a
10485760-byte file) the 416 branch runs, but because `AbortWithStatus`
writes the header before `Content-Range` is set, the wire response carries
status 416 with no `Content-Range` header (the set value only lands in the
already-flushed header map); no body bytes are written. -/
theorem stream416_contentRange_never_on_wire :
    streamWindow ("bytes=20000000-".toList) 10485760 = .notSatisfiableStart ∧
      (stream416Branch GinWriter.init 10485760).wireStatus = some 416 ∧
      headersGet (stream416Branch GinWriter.init 10485760).wireHeaders
          ("Content-Range".toList) = none ∧
      headersGet (stream416Branch GinWriter.init 10485760).pending
          ("Content-Range".toList) = some ("bytes */10485760".toList) ∧
      (stream416Branch GinWriter.init 10485760).body = [] := by decide

/-- C1: a cached handle whose offset was left at 1 by a previous stream, with
no content-cache entry, streaming the window `(0, 1)` of the 2-byte file
`[10, 20]`: the code skips the seek (because `currentOffset == 0`), reads
from the stale offset, and emits `[20]` instead of `file[0..1] = [10, 20]`. -/
theorem streamFile_stale_offset_wrong_bytes :
    streamFile [10, 20] 1 none 0 1 = [20] ∧
      fileSlice [10, 20] 0 1 = [10, 20] ∧
      streamFile [10, 20] 1 none 0 1 ≠ fileSlice [10, 20] 0 1 := by decide

/-! ## Theorems about the file-handle cache -/

theorem lookupA_eq_none (l : List (Nat × FileEntry)) (k : Nat)
    (h : ∀ p ∈ l, p.1 ≠ k) : lookupA l k = none := by
  unfold lookupA
  rw [List.find?_eq_none.mpr]
  · rfl
  · intro x hx
    simp only [decide_eq_true_eq]
    exact h x hx

theorem lookupA_rangeMap_self (n : Nat) :
    lookupA ((List.range n).map cycleEntry) n = none := by
  apply lookupA_eq_none
  intro p hp
  obtain ⟨i, hi, rfl⟩ := List.mem_map.mp hp
  have := List.mem_range.mp hi
  simpa [cycleEntry] using Nat.ne_of_lt this

theorem lookupA_rangeMap_zero (n : Nat) (hn : 0 < n) :
    lookupA ((List.range n).map cycleEntry) 0 = some ⟨0, 0, 0⟩ := by
  obtain ⟨m, rfl⟩ := Nat.exists_eq_succ_of_ne_zero (Nat.pos_iff_ne_zero.mp hn)
  rw [List.range_succ_eq_map]
  simp [lookupA, cycleEntry, List.find?_cons]

theorem lookupA_append_last (l : List (Nat × FileEntry)) (k : Nat) (e : FileEntry)
    (h : ∀ p ∈ l, p.1 ≠ k) : lookupA (l ++ [(k, e)]) k = some e := by
  unfold lookupA
  rw [List.find?_append, List.find?_eq_none.mpr]
  · simp [List.find?_cons]
  · intro x hx
    simp only [decide_eq_true_eq]
    exact h x hx

theorem updateA_skip (l : List (Nat × FileEntry)) (k : Nat) (f : FileEntry → FileEntry)
    (h : ∀ p ∈ l, p.1 ≠ k) : updateA l k f = l := by
  induction l with
  | nil => rfl
  | cons x xs ih =>
    unfold updateA
    simp only [List.map_cons]
    rw [if_neg (h x (List.mem_cons_self _ _))]
    have := ih (fun p hp => h p (List.mem_cons_of_mem _ hp))
    unfold updateA at this
    rw [this]

theorem updateA_append (l1 l2 : List (Nat × FileEntry)) (k : Nat)
    (f : FileEntry → FileEntry) :
    updateA (l1 ++ l2) k f = updateA l1 k f ++ updateA l2 k f :=
  List.map_append _ _ _

theorem findLRU_keep (l : List (Nat × FileEntry)) (a : Nat × FileEntry)
    (h : ∀ pe ∈ l, ¬ pe.2.lastUsed < a.2.lastUsed) :
    l.foldl
      (fun acc pe =>
        match acc with
        | none => if pe.2.refCount = 0 then some pe else none
        | some a0 =>
          if pe.2.refCount = 0 ∧ pe.2.lastUsed < a0.2.lastUsed then some pe else acc)
      (some a) = some a := by
  induction l with
  | nil => rfl
  | cons x xs ih =>
    simp only [List.foldl_cons]
    rw [if_neg]
    · exact ih (fun pe hpe => h pe (List.mem_cons_of_mem _ hpe))
    · intro ⟨h1, h2⟩
      exact h x (List.mem_cons_self _ _) h2

theorem findLRU_rangeMap (n : Nat) (hn : 0 < n) :
    findLRU ((List.range n).map cycleEntry) = some (0, ⟨0, 0, 0⟩) := by
  obtain ⟨m, rfl⟩ := Nat.exists_eq_succ_of_ne_zero (Nat.pos_iff_ne_zero.mp hn)
  rw [List.range_succ_eq_map]
  unfold findLRU
  simp only [List.map_cons, List.foldl_cons, cycleEntry]
  rw [if_pos trivial]
  apply findLRU_keep
  intro pe hpe
  obtain ⟨i, hi, rfl⟩ := List.mem_map.mp hpe
  simp [cycleEntry]

theorem openAndCache_fresh (ent : List (Nat × FileEntry)) (mu co : List Nat)
    (nid : Nat) (path : Nat) (hent : lookupA ent path = none) (hco : path ∉ co) :
    openAndCacheFile ⟨ent, mu, co, nid⟩ path 0 =
      (⟨ent ++ [(path, ⟨nid, 1, 0⟩)], mu, co ++ [path], nid + 1⟩, nid, true) := by
  unfold openAndCacheFile preload
  simp only [if_neg hco]
  rw [hent]

theorem releaseFile_last (l : List (Nat × FileEntry)) (mu co : List Nat)
    (nid : Nat) (k fid : Nat) (lu : Int) (h : ∀ p ∈ l, p.1 ≠ k) :
    releaseFile ⟨l ++ [(k, ⟨fid, 1, lu⟩)], mu, co, nid⟩ k fid 0 =
      ⟨l ++ [(k, ⟨fid, 0, 0⟩)], mu, co, nid⟩ := by
  unfold releaseFile
  rw [lookupA_append_last l k _ h]
  simp only [if_pos rfl]
  norm_num
  rw [updateA_append, updateA_skip l k _ h]
  simp [updateA]

theorem runCycles_state (n : Nat) :
    runCycles n =
      ⟨(List.range n).map cycleEntry, List.range n, List.range n, n⟩ := by
  induction n with
  | zero => rfl
  | succ m ih =>
    rw [runCycles, ih]
    unfold streamCycle
    have hmu : m ∉ List.range m := by simp [List.mem_range]
    simp only [ensureMutex, if_neg hmu]
    unfold getFileFromCacheOrOpen
    rw [lookupA_rangeMap_self]
    simp only [List.length_map, List.length_range]
    by_cases hcap : maxCachedFiles ≤ m
    · rw [if_pos hcap]
      have hm0 : 0 < m := lt_of_lt_of_le (by norm_num [maxCachedFiles]) hcap
      rw [findLRU_rangeMap m hm0]
      simp only []
      have h0mu : (0 : Nat) ∈ List.range m ++ [m] :=
        List.mem_append.mpr (Or.inl (List.mem_range.mpr hm0))
      rw [if_pos h0mu, lookupA_rangeMap_zero m hm0]
      dsimp only
      rw [if_neg (by
        rintro ⟨-, -, h3⟩
        norm_num [fileCacheEntryTTL] at h3)]
      rw [openAndCache_fresh _ _ _ _ _ (lookupA_rangeMap_self m) hmu]
      dsimp only
      rw [releaseFile_last _ _ _ _ _ _ _ (fun p hp => by
        obtain ⟨i, hi, rfl⟩ := List.mem_map.mp hp
        simpa [cycleEntry] using Nat.ne_of_lt (List.mem_range.mp hi))]
      rw [List.range_succ]
      simp [cycleEntry]
    · rw [if_neg hcap]
      rw [openAndCache_fresh _ _ _ _ _ (lookupA_rangeMap_self m) hmu]
      dsimp only
      rw [releaseFile_last _ _ _ _ _ _ _ (fun p hp => by
        obtain ⟨i, hi, rfl⟩ := List.mem_map.mp hp
        simpa [cycleEntry] using Nat.ne_of_lt (List.mem_range.mp hi))]
      rw [List.range_succ]
      simp [cycleEntry]

theorem mem_updateA (l : List (Nat × FileEntry)) (k : Nat) (f : FileEntry → FileEntry)
    (pe : Nat × FileEntry) (h : pe ∈ updateA l k f) :
    pe ∈ l ∨ ∃ q ∈ l, q.1 = k ∧ pe = (q.1, f q.2) := by
  unfold updateA at h
  obtain ⟨q, hq, rfl⟩ := List.mem_map.mp h
  by_cases hk : q.1 = k
  · right
    exact ⟨q, hq, hk, by rw [if_pos hk]⟩
  · left
    rw [if_neg hk]
    exact hq

theorem entries_ensureMutex (s : CacheState) (p : Nat) :
    (ensureMutex s p).entries = s.entries := by
  unfold ensureMutex
  split <;> rfl

theorem openAndCache_entries (s : CacheState) (p : Nat) (t : Int) :
    (openAndCacheFile s p t).1.entries =
      (match lookupA s.entries p with
       | some _ => updateA s.entries p (fun e0 => ⟨e0.fileId, e0.refCount + 1, e0.lastUsed⟩)
       | none => s.entries ++ [(p, ⟨s.nextId, 1, t⟩)]) := by
  unfold openAndCacheFile preload
  split_ifs with hc
  all_goals dsimp only
  all_goals cases hl : lookupA s.entries p
  all_goals simp only [hl]

theorem refNonneg_openAndCache (s : CacheState) (p : Nat) (t : Int)
    (h : ∀ pe ∈ s.entries, 0 ≤ pe.2.refCount) :
    ∀ pe ∈ (openAndCacheFile s p t).1.entries, 0 ≤ pe.2.refCount := by
  rw [openAndCache_entries]
  cases hl : lookupA s.entries p
  all_goals dsimp only
  · intro pe hpe
    rcases List.mem_append.mp hpe with hmem | hlast
    · exact h pe hmem
    · simp only [List.mem_singleton] at hlast
      subst hlast
      norm_num
  · intro pe hpe
    rcases mem_updateA _ _ _ _ hpe with hmem | ⟨q, hq, hk, rfl⟩
    · exact h pe hmem
    · have := h q hq
      simp only []
      omega

theorem refNonneg_acquire (s : CacheState) (p : Nat) (t : Int)
    (h : ∀ pe ∈ s.entries, 0 ≤ pe.2.refCount) :
    ∀ pe ∈ (getFileFromCacheOrOpen s p t).1.entries, 0 ≤ pe.2.refCount := by
  unfold getFileFromCacheOrOpen
  cases hl : lookupA s.entries p
  all_goals dsimp only
  · split
    · split
      · apply refNonneg_openAndCache
        repeat' split
        all_goals intro pe hpe
        all_goals first
          | exact h pe (List.mem_filter.mp hpe).1
          | exact h pe hpe
      · dsimp only
        exact h
    · exact refNonneg_openAndCache _ _ _ h
  · intro pe hpe
    rcases mem_updateA _ _ _ _ hpe with hmem | ⟨q, hq, hk, rfl⟩
    · exact h pe hmem
    · have := h q hq
      simp only []
      omega

theorem refNonneg_release (s : CacheState) (p fid : Nat) (t : Int)
    (h : ∀ pe ∈ s.entries, 0 ≤ pe.2.refCount) :
    ∀ pe ∈ (releaseFile s p fid t).entries, 0 ≤ pe.2.refCount := by
  unfold releaseFile
  cases hl : lookupA s.entries p
  all_goals dsimp only
  · exact h
  · split
    · dsimp only
      intro pe hpe
      rcases mem_updateA _ _ _ _ hpe with hmem | ⟨q, hq, hk, rfl⟩
      · exact h pe hmem
      · dsimp only
        repeat' split
        all_goals simp only []
        all_goals omega
    · exact h

/-- C9: after any sequential history of acquire/release calls starting from
the empty cache, every cached entry's refcount is non-negative. -/
theorem refcount_never_negative (ops : List CacheOp) :
    ∀ pe ∈ (runOps ops).entries, 0 ≤ pe.2.refCount := by
  suffices hstep : ∀ (l : List CacheOp) (s : CacheState),
      (∀ pe ∈ s.entries, 0 ≤ pe.2.refCount) →
      ∀ pe ∈ (l.foldl
        (fun s op =>
          match op with
          | CacheOp.acq p t => (getFileFromCacheOrOpen (ensureMutex s p) p t).1
          | CacheOp.rel p f t => releaseFile s p f t)
        s).entries, 0 ≤ pe.2.refCount by
    exact hstep ops CacheState.empty (by intro pe hpe; cases hpe)
  intro l
  induction l with
  | nil => exact fun s hs => hs
  | cons op rest ih =>
    intro s hs
    simp only [List.foldl_cons]
    apply ih
    cases op with
    | acq p t =>
      apply refNonneg_acquire
      rw [entries_ensureMutex]
      exact hs
    | rel p f t => exact refNonneg_release _ _ _ _ hs

/-- C2 counterexample: 201 sequential acquire/release cycles on 201 distinct
paths, all within the 10-minute TTL window, leave 201 entries in the cache —
more than `maxCachedFiles` and different from
`min maxCachedFiles total = 200`. -/
theorem cache_exceeds_capacity :
    (runCycles (maxCachedFiles + 1)).entries.length = maxCachedFiles + 1 ∧
      maxCachedFiles < (runCycles (maxCachedFiles + 1)).entries.length ∧
      (runCycles (maxCachedFiles + 1)).entries.length ≠
        min maxCachedFiles (maxCachedFiles + 1) := by
  rw [runCycles_state]
  simp [maxCachedFiles]

/-- C2 amended: over sequential distinct-path cycles whose events all lie
within the TTL window, the eviction re-check (which also demands age > TTL)
always fails, the new file is cached regardless, and the cache ends up
holding every path streamed so far — `n` entries after `n` cycles, with no
upper bound at `maxCachedFiles`. -/
theorem runCycles_caches_everything (n : Nat) :
    (runCycles n).entries.length = n := by
  rw [runCycles_state]
  simp

/-- C7 counterexample: path 7 is cached (handle 1) with a per-path mutex and
a content-cache entry; a failed `Stat` answers 500 and purges the file cache
and the mutex map, but the content-cache entry survives. -/
theorem statError_leaves_content_cache :
    (statErrorPurge ⟨[(7, ⟨1, 1, 0⟩)], [7], [7], 2⟩ 7 1).2 = 500 ∧
      lookupA (statErrorPurge ⟨[(7, ⟨1, 1, 0⟩)], [7], [7], 2⟩ 7 1).1.entries 7 = none ∧
      7 ∉ (statErrorPurge ⟨[(7, ⟨1, 1, 0⟩)], [7], [7], 2⟩ 7 1).1.mutexes ∧
      7 ∈ (statErrorPurge ⟨[(7, ⟨1, 1, 0⟩)], [7], [7], 2⟩ 7 1).1.content := by decide

/-- C7 amended: when `Stat` fails on a cached handle, the handler answers 500
and removes the path's entry from the file-handle cache and from the mutex
map (closing the handle), but the content cache is left untouched on this
path — its entry is only collected later by the background sweepers. -/
theorem statErrorPurge_spec (s : CacheState) (p fid : Nat) (e : FileEntry)
    (hl : lookupA s.entries p = some e) (hf : e.fileId = fid) :
    (statErrorPurge s p fid).2 = 500 ∧
      lookupA (statErrorPurge s p fid).1.entries p = none ∧
      p ∉ (statErrorPurge s p fid).1.mutexes ∧
      (statErrorPurge s p fid).1.content = s.content := by
  unfold statErrorPurge
  rw [hl]
  dsimp only
  rw [if_pos hf]
  refine ⟨rfl, ?_, ?_, rfl⟩
  · apply lookupA_eq_none
    intro q hq
    unfold removeA at hq
    have := List.mem_filter.mp hq
    simpa using this.2
  · intro hmem
    have := List.mem_filter.mp hmem
    simp at this

/-- Witness for the amended C7 theorem at a concrete one-entry state. -/
theorem statErrorPurge_spec_witness :
    (lookupA (⟨[(7, ⟨1, 1, 0⟩)], [7], [9], 2⟩ : CacheState).entries 7 =
        some ⟨1, 1, 0⟩ ∧ (⟨1, 1, 0⟩ : FileEntry).fileId = 1) ∧
      ((statErrorPurge ⟨[(7, ⟨1, 1, 0⟩)], [7], [9], 2⟩ 7 1).2 = 500 ∧
        lookupA (statErrorPurge ⟨[(7, ⟨1, 1, 0⟩)], [7], [9], 2⟩ 7 1).1.entries 7 = none ∧
        7 ∉ (statErrorPurge ⟨[(7, ⟨1, 1, 0⟩)], [7], [9], 2⟩ 7 1).1.mutexes ∧
        (statErrorPurge ⟨[(7, ⟨1, 1, 0⟩)], [7], [9], 2⟩ 7 1).1.content =
          (⟨[(7, ⟨1, 1, 0⟩)], [7], [9], 2⟩ : CacheState).content) :=
  ⟨⟨by decide, by decide⟩,
    statErrorPurge_spec ⟨[(7, ⟨1, 1, 0⟩)], [7], [9], 2⟩ 7 1 ⟨1, 1, 0⟩
      (by decide) (by decide)⟩

/-! ## Theorems: byte ranges, base64 and UTF-8 roundtrips -/


theorem charToNat_lt (c : Char) : c.toNat < 1114112 := by
  rcases c.valid with h | ⟨h1, h2⟩
  · exact Nat.lt_trans h (by norm_num)
  · exact h2

theorem charValidRanges (c : Char) :
    c.toNat < 55296 ∨ (57343 < c.toNat ∧ c.toNat < 1114112) := c.valid

theorem utf8Step_encodeChar (c : Char) (bs : List Nat) :
    utf8Step (utf8EncodeChar c ++ bs) = some (c, bs) := by
  have hvr := charValidRanges c
  have hlt := charToNat_lt c
  by_cases h1 : c.toNat < 0x80
  · have he : utf8EncodeChar c = [c.toNat] := by
      unfold utf8EncodeChar
      try dsimp only
      rw [if_pos h1]
    rw [he, List.cons_append, List.nil_append]
    unfold utf8Step
    dsimp only
    rw [if_pos h1, Char.ofNat_toNat]
  · by_cases h2 : c.toNat < 0x800
    · have he : utf8EncodeChar c = [0xC0 + c.toNat / 64, 0x80 + c.toNat % 64] := by
        unfold utf8EncodeChar
        dsimp only
        rw [if_neg h1, if_pos h2]
      rw [he, List.cons_append, List.cons_append, List.nil_append]
      unfold utf8Step
      try dsimp only
      rw [if_neg (by omega), if_neg (by omega), if_pos (by omega)]
      try dsimp only
      rw [if_pos (by omega)]
      have hv : (0xC0 + c.toNat / 64 - 0xC0) * 64 + (0x80 + c.toNat % 64 - 0x80) = c.toNat := by
        omega
      rw [hv, Char.ofNat_toNat]
    · by_cases h3 : c.toNat < 0x10000
      · have he : utf8EncodeChar c =
            [0xE0 + c.toNat / 4096, 0x80 + c.toNat / 64 % 64, 0x80 + c.toNat % 64] := by
          unfold utf8EncodeChar
          dsimp only
          rw [if_neg h1, if_neg h2, if_pos h3]
        rw [he, List.cons_append, List.cons_append, List.cons_append, List.nil_append]
        unfold utf8Step
        try dsimp only
        rw [if_neg (by omega), if_neg (by omega), if_neg (by omega), if_pos (by omega)]
        try dsimp only
        rw [if_pos (by refine ⟨by omega, by omega, by omega, by omega⟩)]
        have hv : (0xE0 + c.toNat / 4096 - 0xE0) * 4096 + (0x80 + c.toNat / 64 % 64 - 0x80) * 64 +
            (0x80 + c.toNat % 64 - 0x80) = c.toNat := by
          omega
        rw [hv]
        rw [if_pos (by omega)]
        rw [Char.ofNat_toNat]
      · have he : utf8EncodeChar c =
            [0xF0 + c.toNat / 262144, 0x80 + c.toNat / 4096 % 64,
             0x80 + c.toNat / 64 % 64, 0x80 + c.toNat % 64] := by
          unfold utf8EncodeChar
          dsimp only
          rw [if_neg h1, if_neg h2, if_neg h3]
        rw [he, List.cons_append, List.cons_append, List.cons_append, List.cons_append,
          List.nil_append]
        unfold utf8Step
        try dsimp only
        rw [if_neg (by omega), if_neg (by omega), if_neg (by omega), if_neg (by omega),
          if_pos (by omega)]
        try dsimp only
        rw [if_pos (by refine ⟨by omega, by omega, by omega, by omega, by omega, by omega⟩)]
        have hv : (0xF0 + c.toNat / 262144 - 0xF0) * 262144 +
            (0x80 + c.toNat / 4096 % 64 - 0x80) * 4096 +
            (0x80 + c.toNat / 64 % 64 - 0x80) * 64 + (0x80 + c.toNat % 64 - 0x80) = c.toNat := by
          omega
        rw [hv]
        rw [if_pos (by omega)]
        rw [Char.ofNat_toNat]

theorem utf8EncodeChar_ne_nil (c : Char) : utf8EncodeChar c ≠ [] := by
  unfold utf8EncodeChar
  dsimp only
  split
  · simp
  · split
    · simp
    · split <;> simp

theorem utf8DecodeAux_cons (fuel : Nat) (l : List Nat) (hl : l ≠ []) :
    utf8DecodeAux (fuel + 1) l =
      match utf8Step l with
      | none => none
      | some (c, rest2) =>
        match utf8DecodeAux fuel rest2 with
        | none => none
        | some cs => some (c :: cs) := by
  cases l with
  | nil => exact absurd rfl hl
  | cons b r => rfl

theorem utf8DecodeAux_encode (s : List Char) :
    ∀ fuel, s.length ≤ fuel → utf8DecodeAux fuel (utf8Encode s) = some s := by
  induction s with
  | nil =>
    intro fuel _
    cases fuel <;> rfl
  | cons c cs ih =>
    intro fuel hf
    have hlen : cs.length + 1 ≤ fuel := by simpa using hf
    obtain ⟨f, rfl⟩ : ∃ f, fuel = f + 1 := ⟨fuel - 1, by omega⟩
    have hne : utf8Encode (c :: cs) ≠ [] := by
      show utf8EncodeChar c ++ utf8Encode cs ≠ []
      simp [utf8EncodeChar_ne_nil c]
    rw [show utf8Encode (c :: cs) = utf8EncodeChar c ++ utf8Encode cs from rfl] at hne ⊢
    rw [utf8DecodeAux_cons f _ hne, utf8Step_encodeChar]
    dsimp only
    rw [ih f (by omega)]

theorem utf8_roundtrip (s : List Char) : utf8Decode (utf8Encode s) = some s := by
  unfold utf8Decode
  apply utf8DecodeAux_encode
  -- each character encodes to at least one byte
  induction s with
  | nil => simp
  | cons c cs ih =>
    show (c :: cs).length ≤ (utf8EncodeChar c ++ utf8Encode cs).length
    rw [List.length_append]
    have h1 : 1 ≤ (utf8EncodeChar c).length := by
      cases he : utf8EncodeChar c with
      | nil => exact absurd he (utf8EncodeChar_ne_nil c)
      | cons x xs => simp
    simp only [List.length_cons]
    omega

/-! ## Theorems: JSON string escaping roundtrip -/


theorem hexVal_hexDigit : ∀ n < 16, hexVal (hexDigit n) = some n := by decide

theorem jstrStep_escapeChar (c : Char) (tail : List Char) :
    jstrStep (escapeChar c ++ tail) = some (some c, tail) := by
  have hlt := charToNat_lt c
  unfold escapeChar
  split_ifs with h1 h2 h3 h4 h5 h6 h7 h8
  · subst h1
    rfl
  · subst h2
    rfl
  · subst h3
    rfl
  · subst h4
    rfl
  · subst h5
    rfl
  · show jstrStep ('\\' :: 'u' :: '0' :: '0' :: hexDigit (c.toNat / 16) ::
      hexDigit (c.toNat % 16) :: tail) = some (some c, tail)
    have hc32 : c.toNat < 256 := by
      rcases h6 with h | h | h | h
      · omega
      all_goals subst h
      all_goals decide
    unfold jstrStep
    try dsimp only
    rw [if_neg (by decide), if_pos rfl]
    try dsimp only
    rw [if_neg (by decide), if_neg (by decide), if_neg (by decide), if_neg (by decide),
      if_neg (by decide), if_neg (by decide), if_neg (by decide), if_neg (by decide),
      if_pos rfl]
    try dsimp only
    rw [show hexVal '0' = some 0 from rfl]
    try dsimp only
    rw [hexVal_hexDigit _ (by omega), hexVal_hexDigit _ (by omega)]
    try dsimp only
    rw [show (0 : Nat) * 4096 + 0 * 256 + c.toNat / 16 * 16 + c.toNat % 16 = c.toNat from by
      omega]
    rw [if_neg (by omega), if_neg (by omega), Char.ofNat_toNat]
  · show jstrStep ('\\' :: 'u' :: '2' :: '0' :: '2' :: '8' :: tail) = some (some c, tail)
    unfold jstrStep
    try dsimp only
    rw [if_neg (by decide), if_pos rfl]
    try dsimp only
    rw [if_neg (by decide), if_neg (by decide), if_neg (by decide), if_neg (by decide),
      if_neg (by decide), if_neg (by decide), if_neg (by decide), if_neg (by decide),
      if_pos rfl]
    try dsimp only
    rw [show hexVal '2' = some 2 from rfl, show hexVal '0' = some 0 from rfl,
      show hexVal '8' = some 8 from rfl]
    try dsimp only
    rw [show (2 : Nat) * 4096 + 0 * 256 + 2 * 16 + 8 = 8232 from by norm_num]
    rw [if_neg (by decide), if_neg (by decide)]
    have hcv : c = Char.ofNat 8232 := by
      have h0 := Char.ofNat_toNat c
      rw [h7] at h0
      exact h0.symm
    rw [hcv]
  · show jstrStep ('\\' :: 'u' :: '2' :: '0' :: '2' :: '9' :: tail) = some (some c, tail)
    unfold jstrStep
    try dsimp only
    rw [if_neg (by decide), if_pos rfl]
    try dsimp only
    rw [if_neg (by decide), if_neg (by decide), if_neg (by decide), if_neg (by decide),
      if_neg (by decide), if_neg (by decide), if_neg (by decide), if_neg (by decide),
      if_pos rfl]
    try dsimp only
    rw [show hexVal '2' = some 2 from rfl, show hexVal '0' = some 0 from rfl,
      show hexVal '9' = some 9 from rfl]
    try dsimp only
    rw [show (2 : Nat) * 4096 + 0 * 256 + 2 * 16 + 9 = 8233 from by norm_num]
    rw [if_neg (by decide), if_neg (by decide)]
    have hcv : c = Char.ofNat 8233 := by
      have h0 := Char.ofNat_toNat c
      rw [h8] at h0
      exact h0.symm
    rw [hcv]
  · show jstrStep (c :: tail) = some (some c, tail)
    unfold jstrStep
    try dsimp only
    rw [if_neg h1, if_neg h2, if_neg (by push_neg at h6; omega)]

theorem escapeChar_ne_nil (c : Char) : escapeChar c ≠ [] := by
  unfold escapeChar
  split_ifs <;> simp

theorem parseJStringAux_escape (s : List Char) :
    ∀ (fuel : Nat) (acc rest : List Char), (escapeChars s).length + 1 ≤ fuel →
      parseJStringAux fuel acc (escapeChars s ++ '"' :: rest) =
        some (acc.reverse ++ s, rest) := by
  induction s with
  | nil =>
    intro fuel acc rest hf
    obtain ⟨f, rfl⟩ : ∃ f, fuel = f + 1 := ⟨fuel - 1, by omega⟩
    show parseJStringAux (f + 1) acc ('"' :: rest) = _
    unfold parseJStringAux jstrStep
    try dsimp only
    rw [if_pos rfl]
    simp
  | cons c cs ih =>
    intro fuel acc rest hf
    have hlen : (escapeChar c).length + (escapeChars cs).length + 1 ≤ fuel := by
      have : escapeChars (c :: cs) = escapeChar c ++ escapeChars cs := rfl
      rw [this, List.length_append] at hf
      omega
    have hc1 : 1 ≤ (escapeChar c).length := by
      cases he : escapeChar c with
      | nil => exact absurd he (escapeChar_ne_nil c)
      | cons x xs => simp
    obtain ⟨f, rfl⟩ : ∃ f, fuel = f + 1 := ⟨fuel - 1, by omega⟩
    show parseJStringAux (f + 1) acc ((escapeChar c ++ escapeChars cs) ++ '"' :: rest) = _
    rw [List.append_assoc]
    unfold parseJStringAux
    rw [jstrStep_escapeChar]
    dsimp only
    rw [ih f (c :: acc) rest (by omega)]
    simp

theorem parseJString_escape (s rest : List Char) :
    parseJString (escapeChars s ++ '"' :: rest) = some (s, rest) := by
  unfold parseJString
  rw [parseJStringAux_escape s _ [] rest (by
    simp only [List.length_append, List.length_cons]
    omega)]
  simp

/-! ## Theorems: decimal formatting, number parsing, byte encodings, and the
signature service roundtrip -/

theorem charToNat_ofNat (n : Nat) (h : n < 55296) : (Char.ofNat n).toNat = n := by
  unfold Char.ofNat Char.toNat
  split
  · rfl
  · rename_i hn
    exact absurd (Or.inl (by exact_mod_cast h)) hn

theorem digitChar_isDigit (k : Nat) (h : k < 10) :
    (Char.ofNat (48 + k)).isDigit = true := by
  interval_cases k <;> decide

theorem natDecAux_digits (fuel : Nat) :
    ∀ n acc, (∀ ch ∈ acc, ch.isDigit = true) →
      ∀ ch ∈ natDecAux fuel n acc, ch.isDigit = true := by
  induction fuel with
  | zero => intro n acc hacc ch hch; exact hacc ch hch
  | succ f ih =>
    intro n acc hacc ch hch
    unfold natDecAux at hch
    have hacc' : ∀ d ∈ Char.ofNat (48 + n % 10) :: acc, d.isDigit = true := by
      intro d hd
      rcases List.mem_cons.mp hd with rfl | hd
      · exact digitChar_isDigit _ (by omega)
      · exact hacc d hd
    split at hch
    · exact hacc' ch hch
    · exact ih _ _ hacc' ch hch

theorem natDecChars_digits (n : Nat) : ∀ ch ∈ natDecChars n, ch.isDigit = true :=
  natDecAux_digits (n + 1) n [] (by intro ch h; cases h)

theorem natDecAux_head (fuel : Nat) :
    ∀ n acc, 1 ≤ n → n < fuel →
      ∃ c ds, natDecAux fuel n acc = c :: ds ∧ 48 < c.toNat ∧ c.toNat ≤ 57 := by
  induction fuel with
  | zero => intro n acc h1 h2; omega
  | succ f ih =>
    intro n acc h1 h2
    unfold natDecAux
    dsimp only
    split
    · rename_i hn
      refine ⟨Char.ofNat (48 + n % 10), acc, rfl, ?_, ?_⟩
      · rw [charToNat_ofNat _ (by omega)]
        omega
      · rw [charToNat_ofNat _ (by omega)]
        omega
    · rename_i hn
      push_neg at hn
      exact ih (n / 10) _ (by omega) (by omega)

theorem foldl_natDecAux (n : Nat) :
    ∀ fuel acc (s : Nat), n < fuel →
      ∃ k, 1 ≤ k ∧
        List.foldl (fun a c => a * 10 + (c.toNat - 48)) s (natDecAux fuel n acc) =
          List.foldl (fun a c => a * 10 + (c.toNat - 48)) (s * 10 ^ k + n) acc := by
  induction n using Nat.strong_induction_on with
  | _ n ih =>
    intro fuel acc s hf
    obtain ⟨f, rfl⟩ : ∃ f, fuel = f + 1 := ⟨fuel - 1, by omega⟩
    unfold natDecAux
    dsimp only
    split
    · rename_i hn
      refine ⟨1, le_refl 1, ?_⟩
      simp only [List.foldl_cons]
      rw [charToNat_ofNat _ (by omega)]
      congr 1
      have : n % 10 = n := Nat.mod_eq_of_lt hn
      omega
    · rename_i hn
      push_neg at hn
      obtain ⟨k, hk1, hk⟩ :=
        ih (n / 10) (by omega) f (Char.ofNat (48 + n % 10) :: acc) s (by omega)
      refine ⟨k + 1, by omega, ?_⟩
      rw [hk]
      simp only [List.foldl_cons]
      rw [charToNat_ofNat _ (by omega)]
      congr 1
      have h1 : (s * 10 ^ k + n / 10) * 10 + (48 + n % 10 - 48) =
          s * 10 ^ k * 10 + (n / 10 * 10 + n % 10) := by
        omega
      have h2 : n / 10 * 10 + n % 10 = n := by omega
      rw [h1, h2, pow_succ, ← mul_assoc]

theorem digitsVal_natDecChars (n : Nat) : digitsVal (natDecChars n) = n := by
  unfold digitsVal natDecChars
  obtain ⟨k, _, hk⟩ := foldl_natDecAux n (n + 1) [] 0 (by omega)
  rw [hk]
  simp

theorem takeDigits_stop (ds : List Char) (c : Char) (r : List Char)
    (hds : ∀ d ∈ ds, d.isDigit = true) (hc : c.isDigit = false) :
    takeDigits (ds ++ c :: r) = (ds, c :: r) := by
  induction ds with
  | nil =>
    unfold takeDigits
    simp [hc]
  | cons d dd ih =>
    have hd : d.isDigit = true := hds d (List.mem_cons_self _ _)
    have ihh := ih (fun x hx => hds x (List.mem_cons_of_mem _ hx))
    show takeDigits (d :: (dd ++ c :: r)) = (d :: dd, c :: r)
    unfold takeDigits
    rw [hd]
    dsimp only
    rw [ihh]
    simp

theorem bitsAux_spec (fuel : Nat) :
    ∀ n, n < fuel → n < 2 ^ bitsAux fuel n ∧ (1 ≤ n → 2 ^ (bitsAux fuel n - 1) ≤ n) := by
  induction fuel with
  | zero => intro n h; omega
  | succ f ih =>
    intro n hf
    unfold bitsAux
    split
    · rename_i h0
      subst h0
      exact ⟨by norm_num, by omega⟩
    · rename_i h0
      obtain ⟨ha, hb⟩ := ih (n / 2) (by omega)
      constructor
      · rw [pow_succ]
        omega
      · intro h1
        by_cases hn2 : n / 2 = 0
        · rw [hn2] at ha hb ⊢
          have : bitsAux f 0 = 0 := by
            cases f <;> rfl
          rw [this]
          simpa using h1
        · have hb' := hb (by omega)
          have hbz : 1 ≤ bitsAux f (n / 2) := by
            by_contra hz
            push_neg at hz
            have h0 : bitsAux f (n / 2) = 0 := by omega
            rw [h0] at ha
            simp at ha
            omega
          rw [show bitsAux f (n / 2) + 1 - 1 = bitsAux f (n / 2) - 1 + 1 by omega, pow_succ]
          have := Nat.div_add_mod n 2
          omega

theorem bits_spec (n : Nat) :
    n < 2 ^ bits n ∧ (1 ≤ n → 2 ^ (bits n - 1) ≤ n) :=
  bitsAux_spec (n + 1) n (by omega)

theorem bits_le_of_lt (n k : Nat) (h : n < 2 ^ k) : bits n ≤ k := by
  by_contra hgt
  push_neg at hgt
  rcases Nat.eq_zero_or_pos n with rfl | hpos
  · have : bits 0 = 0 := rfl
    omega
  · have h2 := (bits_spec n).2 hpos
    have : 2 ^ k ≤ 2 ^ (bits n - 1) := Nat.pow_le_pow_right (by norm_num) (by omega)
    omega

theorem bits_bound (n k : Nat) (h : n < 2 ^ k) : n < 2 ^ bits n ∧ bits n ≤ k :=
  ⟨(bits_spec n).1, bits_le_of_lt n k h⟩

theorem roundNatF64_some (m : Nat) (hm : m < 2 ^ 64) :
    ∃ p, roundNatF64 m = some p := by
  unfold roundNatF64
  dsimp only
  split
  · exact ⟨_, rfl⟩
  · rename_i hgt
    push_neg at hgt
    have hble : bits m ≤ 64 := bits_le_of_lt m 64 hm
    have hmlt : m < 2 ^ bits m := (bits_spec m).1
    have hq : m / 2 ^ (bits m - 53) < 2 ^ 53 := by
      rw [Nat.div_lt_iff_lt_mul (by positivity)]
      calc m < 2 ^ bits m := hmlt
      _ = 2 ^ 53 * 2 ^ (bits m - 53) := by
        rw [← pow_add]
        congr 1
        omega
    have hm' : ∀ m' ≤ m / 2 ^ (bits m - 53) + 1, bits m' ≤ 54 := by
      intro m' hle
      exact bits_le_of_lt m' 54 (by
        have : (2:Nat) ^ 53 + 1 ≤ 2 ^ 54 := by norm_num
        omega)
    rw [if_neg]
    · exact ⟨_, rfl⟩
    · push_neg
      split
      · calc bits (m / 2 ^ (bits m - 53) + 1) + (bits m - 53)
            ≤ 54 + 11 := by
              have := hm' (m / 2 ^ (bits m - 53) + 1) (le_refl _)
              omega
        _ ≤ 1024 := by norm_num
      · calc bits (m / 2 ^ (bits m - 53)) + (bits m - 53)
            ≤ 54 + 11 := by
              have := hm' (m / 2 ^ (bits m - 53)) (by omega)
              omega
        _ ≤ 1024 := by norm_num

theorem decimalToF64_int_some (neg : Bool) (m : Nat) (hm : m < 2 ^ 64) :
    ∃ f, decimalToF64 neg m 0 = some f := by
  unfold decimalToF64
  split
  · exact ⟨_, rfl⟩
  · rw [if_neg (by norm_num)]
    rw [if_neg (by
      push_neg
      have : (0:Int) ≤ ((natDecChars m).length : Int) := by positivity
      omega)]
    rw [if_pos (le_refl (0:Int))]
    obtain ⟨p, hp⟩ := roundNatF64_some (m * 10 ^ ((0:Int).toNat)) (by simpa using hm)
    rw [hp]
    exact ⟨_, rfl⟩

theorem parseJNumberTail_stop (neg : Bool) (ip : Nat) (tail : List Char) :
    parseJNumberTail neg ip (',' :: tail) =
      match decimalToF64 neg ip 0 with
      | none => none
      | some f => some (f, ',' :: tail) := by
  rfl

theorem natDecChars_head (n : Nat) (h : 1 ≤ n) :
    ∃ c ds, natDecChars n = c :: ds ∧ 48 < c.toNat ∧ c.toNat ≤ 57 :=
  natDecAux_head (n + 1) n [] h (by omega)

theorem parseJNumber_posDec (m : Nat) (tail : List Char) (hm : 1 ≤ m) :
    parseJNumber (natDecChars m ++ ',' :: tail) =
      match decimalToF64 false m 0 with
      | none => none
      | some f => some (f, ',' :: tail) := by
  obtain ⟨c, ds, he, hc1, hc2⟩ := natDecChars_head m hm
  have hdigits := natDecChars_digits m
  rw [he] at hdigits ⊢
  rw [List.cons_append]
  unfold parseJNumber
  try dsimp only
  have hsn : (match c :: (ds ++ ',' :: tail) with
      | '-' :: r => (true, r)
      | x => (false, c :: (ds ++ ',' :: tail))) = (false, c :: (ds ++ ',' :: tail)) := by
    split
    · rename_i r heqm
      injection heqm with h1 h2
      rw [h1] at hc1
      exact absurd hc1 (by decide)
    · rfl
  rw [hsn]
  try dsimp only
  rw [if_neg (show ¬ c = '0' from fun h => by
    rw [h] at hc1
    exact absurd hc1 (by decide))]
  rw [hdigits c (List.mem_cons_self _ _)]
  try dsimp only
  rw [takeDigits_stop ds ',' tail (fun d hd => hdigits d (List.mem_cons_of_mem _ hd))
    (by decide)]
  try dsimp only
  rw [← List.cons_append] at *
  rw [← he, digitsVal_natDecChars]
  exact parseJNumberTail_stop false m tail

theorem parseJNumber_negDec (m : Nat) (tail : List Char) (hm : 1 ≤ m) :
    parseJNumber ('-' :: (natDecChars m ++ ',' :: tail)) =
      match decimalToF64 true m 0 with
      | none => none
      | some f => some (f, ',' :: tail) := by
  obtain ⟨c, ds, he, hc1, hc2⟩ := natDecChars_head m hm
  have hdigits := natDecChars_digits m
  rw [he] at hdigits ⊢
  rw [List.cons_append]
  unfold parseJNumber
  try dsimp only
  have hsn : (match '-' :: (c :: (ds ++ ',' :: tail)) with
      | '-' :: r => (true, r)
      | x => (false, '-' :: (c :: (ds ++ ',' :: tail)))) =
      (true, c :: (ds ++ ',' :: tail)) := rfl
  rw [hsn]
  try dsimp only
  rw [if_neg (show ¬ c = '0' from fun h => by
    rw [h] at hc1
    exact absurd hc1 (by decide))]
  rw [hdigits c (List.mem_cons_self _ _)]
  try dsimp only
  rw [takeDigits_stop ds ',' tail (fun d hd => hdigits d (List.mem_cons_of_mem _ hd))
    (by decide)]
  try dsimp only
  rw [← List.cons_append] at *
  rw [← he, digitsVal_natDecChars]
  exact parseJNumberTail_stop true m tail

theorem parseJNumber_intDec (e : Int) (tail : List Char)
    (he1 : -(2 ^ 63) ≤ e) (he2 : e < 2 ^ 63) :
    parseJNumber (intDecChars e ++ ',' :: tail) = some (f64OfInt e, ',' :: tail) := by
  rcases lt_trichotomy e 0 with hneg | rfl | hpos
  · have hm : 1 ≤ e.natAbs := by omega
    have hd : intDecChars e = '-' :: natDecChars e.natAbs := by
      unfold intDecChars
      rw [if_pos hneg]
    rw [hd, List.cons_append, parseJNumber_negDec _ _ hm]
    obtain ⟨f, hf⟩ := decimalToF64_int_some true e.natAbs (by omega)
    rw [hf]
    have h392 : f64OfInt e = f := by
      unfold f64OfInt
      rw [show decide (e < 0) = true by simp [hneg], hf]
    rw [h392]
  · rfl
  · have hm : 1 ≤ e.toNat := by omega
    have hd : intDecChars e = natDecChars e.toNat := by
      unfold intDecChars
      rw [if_neg (by omega)]
    rw [hd, parseJNumber_posDec _ _ hm]
    obtain ⟨f, hf⟩ := decimalToF64_int_some false e.toNat (by omega)
    rw [hf]
    have h392 : f64OfInt e = f := by
      unfold f64OfInt
      rw [show decide (e < 0) = false by simp; omega,
        show e.natAbs = e.toNat by omega, hf]
    rw [h392]

theorem b64Char_spec : ∀ n < 64, b64Index (b64Char n) = some n ∧ b64Char n ≠ '=' := by
  decide

theorem b64_roundtrip : ∀ bs : List Nat, (∀ b ∈ bs, b < 256) →
    b64Decode (b64Encode bs) = some bs := by
  intro bs
  induction bs using b64Encode.induct with
  | case1 =>
    intro _
    rfl
  | case2 b0 =>
    intro h
    have hb0 : b0 < 256 := h b0 (by simp)
    have h1 := b64Char_spec (b0 / 4) (by omega)
    have h2 := b64Char_spec (b0 % 4 * 16) (by omega)
    simp only [b64Encode, b64Decode, h1.1, h2.1]
    rw [if_pos ⟨trivial, trivial, trivial⟩]
    simp only [Option.some.injEq, List.cons.injEq, eq_self_iff_true, and_true]
    omega
  | case3 b0 b1 =>
    intro h
    have hb0 : b0 < 256 := h b0 (by simp)
    have hb1 : b1 < 256 := h b1 (by simp)
    have h1 := b64Char_spec (b0 / 4) (by omega)
    have h2 := b64Char_spec (b0 % 4 * 16 + b1 / 16) (by omega)
    have h3 := b64Char_spec (b1 % 16 * 4) (by omega)
    simp only [b64Encode, b64Decode, h1.1, h2.1]
    rw [if_neg (fun hc => h3.2 hc.1)]
    simp only [h3.1]
    rw [if_pos ⟨trivial, trivial⟩]
    simp only [Option.some.injEq, List.cons.injEq, eq_self_iff_true, and_true]
    omega
  | case4 b0 b1 b2 rest ih =>
    intro h
    have hb0 : b0 < 256 := h b0 (by simp)
    have hb1 : b1 < 256 := h b1 (by simp)
    have hb2 : b2 < 256 := h b2 (by simp)
    have h1 := b64Char_spec (b0 / 4) (by omega)
    have h2 := b64Char_spec (b0 % 4 * 16 + b1 / 16) (by omega)
    have h3 := b64Char_spec (b1 % 16 * 4 + b2 / 64) (by omega)
    have h4 := b64Char_spec (b2 % 64) (by omega)
    have hrest : b64Decode (b64Encode rest) = some rest :=
      ih (fun b hb => h b (by simp [hb]))
    simp only [b64Encode, b64Decode, h1.1, h2.1]
    rw [if_neg (fun hc => h3.2 hc.1)]
    simp only [h3.1]
    rw [if_neg (fun hc => h4.2 hc.1)]
    simp only [h4.1, hrest, Option.some.injEq, List.cons.injEq, eq_self_iff_true, and_true]
    omega

theorem wordBytes_lt256 (l : List Nat) :
    ∀ b ∈ l.foldr
      (fun wd acc =>
        wd / 2 ^ 24 % 256 :: wd / 2 ^ 16 % 256 :: wd / 2 ^ 8 % 256 :: wd % 256 :: acc)
      [], b < 256 := by
  induction l with
  | nil => simp
  | cons wd ws ih =>
    intro b hb
    simp only [List.foldr_cons, List.mem_cons] at hb
    rcases hb with h | h | h | h | h
    · omega
    · omega
    · omega
    · omega
    · exact ih b h

theorem sha256_lt256 (msg : List Nat) : ∀ b ∈ sha256 msg, b < 256 := by
  unfold sha256
  exact wordBytes_lt256 _

theorem hmacSha256_lt256 (key msg : List Nat) : ∀ b ∈ hmacSha256 key msg, b < 256 := by
  unfold hmacSha256
  exact sha256_lt256 _

theorem utf8EncodeChar_lt256 (c : Char) : ∀ b ∈ utf8EncodeChar c, b < 256 := by
  have hc := charToNat_lt c
  dsimp only [utf8EncodeChar]
  intro b hb
  split_ifs at hb <;>
    simp only [List.mem_cons, List.not_mem_nil, or_false] at hb <;> omega

theorem utf8Encode_lt256 (s : List Char) : ∀ b ∈ utf8Encode s, b < 256 := by
  induction s with
  | nil => simp [utf8Encode]
  | cons c cs ih =>
    intro b hb
    simp only [utf8Encode, List.mem_append] at hb
    rcases hb with h | h
    · exact utf8EncodeChar_lt256 c b h
    · exact ih b h

theorem skipWs_cons (c : Char) (r : List Char)
    (h : ¬(c = ' ' ∨ c = Char.ofNat 9 ∨ c = Char.ofNat 10 ∨ c = Char.ofNat 13)) :
    skipWs (c :: r) = c :: r := by
  unfold skipWs
  rw [if_neg h]

theorem encodeJString_cons (k X : List Char) :
    encodeJString k ++ X = '"' :: (escapeChars k ++ '"' :: X) := by
  simp [encodeJString]

theorem parseJValue_str (f : Nat) (v tail : List Char) :
    parseJValue (f + 1) (encodeJString v ++ tail) = some (.jstr v, tail) := by
  rw [encodeJString_cons]
  unfold parseJValue
  rw [skipWs_cons _ _ (by decide)]
  dsimp only
  rw [if_pos rfl, parseJString_escape]

theorem parseJValue_intDec (f : Nat) (e : Int) (tail : List Char)
    (he1 : -(2 ^ 63) ≤ e) (he2 : e < 2 ^ 63) :
    parseJValue (f + 1) (intDecChars e ++ ',' :: tail) =
      some (.jnum (f64OfInt e), ',' :: tail) := by
  have hnum := parseJNumber_intDec e tail he1 he2
  obtain ⟨c, r, hcr, hcd, ht1, ht2⟩ :
      ∃ c r, intDecChars e ++ ',' :: tail = c :: r ∧
        (c = '-' ∨ c.isDigit = true) ∧ 45 ≤ c.toNat ∧ c.toNat ≤ 57 := by
    rcases lt_trichotomy e 0 with hneg | rfl | hpos
    · refine ⟨'-', natDecChars e.natAbs ++ ',' :: tail, ?_, Or.inl rfl, by decide, by decide⟩
      unfold intDecChars
      rw [if_pos hneg, List.cons_append]
    · exact ⟨'0', ',' :: tail, rfl, Or.inr (by decide), by decide, by decide⟩
    · obtain ⟨c, ds, he, hc1, hc2⟩ := natDecChars_head e.toNat (by omega)
      have hdig : c.isDigit = true :=
        natDecChars_digits e.toNat c (by rw [he]; exact List.mem_cons_self _ _)
      refine ⟨c, ds ++ ',' :: tail, ?_, Or.inr hdig, by omega, hc2⟩
      unfold intDecChars
      rw [if_neg (by omega), he, List.cons_append]
  rw [hcr] at hnum ⊢
  unfold parseJValue
  rw [skipWs_cons _ _ (fun h => by
    rcases h with h | h | h | h <;> rw [h] at ht1 ht2 <;> revert ht1 ht2 <;> decide)]
  dsimp only
  rw [if_neg (fun h => by rw [h] at ht1; exact absurd ht1 (by decide)),
    if_neg (fun h => by rw [h] at ht2; exact absurd ht2 (by decide)),
    if_neg (fun h => by rw [h] at ht2; exact absurd ht2 (by decide)),
    if_neg (fun h => by rw [h] at ht2; exact absurd ht2 (by decide)),
    if_neg (fun h => by rw [h] at ht2; exact absurd ht2 (by decide)),
    if_neg (fun h => by rw [h] at ht2; exact absurd ht2 (by decide)),
    if_pos hcd, hnum]

theorem parseJMembers_str_cons (g : Nat) (k v rest : List Char) (first : Bool) :
    parseJMembers (g + 2) (encodeJString k ++ ':' :: (encodeJString v ++ ',' :: rest)) first =
      (match parseJMembers (g + 1) (skipWs rest) false with
       | some (.jobj ms, rest5) => some (.jobj ((k, JValue.jstr v) :: ms), rest5)
       | _ => none) := by
  rw [encodeJString_cons]
  show parseJMembers (g + 1 + 1) _ _ = _
  conv_lhs => unfold parseJMembers
  try dsimp only
  rw [if_neg (fun h => absurd h.1 (by decide))]
  rw [if_pos rfl, parseJString_escape]
  try dsimp only
  rw [skipWs_cons _ _ (by decide)]
  split
  · rename_i rest2 heq
    injection heq with h1 h2
    subst h2
    rw [parseJValue_str g v (',' :: rest)]
    try dsimp only
    rw [skipWs_cons _ _ (by decide)]
    split
    · rename_i rest4 heq2
      injection heq2 with h3 h4
      subst h4
      rfl
    · rename_i c2 rest4 hno heq2
      injection heq2 with h3 h4
      exact absurd h3.symm hno
    · rename_i heq2
      exact absurd heq2 (by simp)
  · rename_i hno
    exact ((hno (encodeJString v ++ ',' :: rest) rfl)).elim

theorem parseJMembers_str_last (g : Nat) (k v tail : List Char) (first : Bool) :
    parseJMembers (g + 2) (encodeJString k ++ ':' :: (encodeJString v ++ rbrace :: tail)) first =
      some (.jobj [(k, JValue.jstr v)], tail) := by
  rw [encodeJString_cons]
  show parseJMembers (g + 1 + 1) _ _ = _
  conv_lhs => unfold parseJMembers
  try dsimp only
  rw [if_neg (fun h => absurd h.1 (by decide))]
  rw [if_pos rfl, parseJString_escape]
  try dsimp only
  rw [skipWs_cons _ _ (by decide)]
  split
  · rename_i rest2 heq
    injection heq with h1 h2
    subst h2
    rw [parseJValue_str g v (rbrace :: tail)]
    try dsimp only
    rw [skipWs_cons _ _ (by decide)]
    split
    · rename_i rest4 heq2
      injection heq2 with h3 h4
      exact absurd h3 (by decide)
    · rename_i c2 rest4 hno heq2
      injection heq2 with h3 h4
      subst h3
      subst h4
      rw [if_pos rfl]
    · rename_i heq2
      exact absurd heq2 (by simp)
  · rename_i hno
    exact ((hno (encodeJString v ++ rbrace :: tail) rfl)).elim

theorem parseJMembers_num_cons (g : Nat) (k : List Char) (e : Int) (rest : List Char)
    (first : Bool) (he1 : -(2 ^ 63) ≤ e) (he2 : e < 2 ^ 63) :
    parseJMembers (g + 2) (encodeJString k ++ ':' :: (intDecChars e ++ ',' :: rest)) first =
      (match parseJMembers (g + 1) (skipWs rest) false with
       | some (.jobj ms, rest5) => some (.jobj ((k, JValue.jnum (f64OfInt e)) :: ms), rest5)
       | _ => none) := by
  rw [encodeJString_cons]
  show parseJMembers (g + 1 + 1) _ _ = _
  conv_lhs => unfold parseJMembers
  try dsimp only
  rw [if_neg (fun h => absurd h.1 (by decide))]
  rw [if_pos rfl, parseJString_escape]
  try dsimp only
  rw [skipWs_cons _ _ (by decide)]
  split
  · rename_i rest2 heq
    injection heq with h1 h2
    subst h2
    rw [parseJValue_intDec g e rest he1 he2]
    try dsimp only
    rw [skipWs_cons _ _ (by decide)]
    split
    · rename_i rest4 heq2
      injection heq2 with h3 h4
      subst h4
      rfl
    · rename_i c2 rest4 hno heq2
      injection heq2 with h3 h4
      exact absurd h3.symm hno
    · rename_i heq2
      exact absurd heq2 (by simp)
  · rename_i hno
    exact ((hno (intDecChars e ++ ',' :: rest) rfl)).elim

theorem skipWs_encode (k X : List Char) :
    skipWs (encodeJString k ++ X) = encodeJString k ++ X := by
  rw [encodeJString_cons, skipWs_cons _ _ (by decide)]

theorem parseJValue_payload (g : Nat) (d s tail : List Char) :
    parseJValue (g + 4) (marshalPayload d s ++ tail) =
      some (.jobj [("data".toList, JValue.jstr d), ("signature".toList, JValue.jstr s)],
        tail) := by
  have harg : marshalPayload d s ++ tail =
      lbrace :: (encodeJString "data".toList ++ ':' ::
        (encodeJString d ++ ',' ::
          (encodeJString "signature".toList ++ ':' :: (encodeJString s ++ rbrace :: tail)))) := by
    simp [marshalPayload, List.append_assoc]
  rw [harg]
  show parseJValue (g + 3 + 1) _ = _
  conv_lhs => unfold parseJValue
  try dsimp only
  rw [skipWs_cons _ _ (by decide)]
  try dsimp only
  rw [if_neg (by decide), if_pos rfl, skipWs_encode]
  show parseJMembers (g + 1 + 2) _ _ = _
  rw [parseJMembers_str_cons (g + 1), skipWs_encode,
    parseJMembers_str_last g]

theorem parseJValue_sigdata (g : Nat) (it md : List Char) (e : Int) (tail : List Char)
    (he1 : -(2 ^ 63) ≤ e) (he2 : e < 2 ^ 63) :
    parseJValue (g + 6) (marshalSigData it md e ++ tail) =
      some (.jobj [("expireAt".toList, JValue.jnum (f64OfInt e)),
        ("itemId".toList, JValue.jstr it), ("mediaId".toList, JValue.jstr md)], tail) := by
  have harg : marshalSigData it md e ++ tail =
      lbrace :: (encodeJString "expireAt".toList ++ ':' ::
        (intDecChars e ++ ',' ::
          (encodeJString "itemId".toList ++ ':' ::
            (encodeJString it ++ ',' ::
              (encodeJString "mediaId".toList ++ ':' ::
                (encodeJString md ++ rbrace :: tail)))))) := by
    simp [marshalSigData, List.append_assoc]
  rw [harg]
  show parseJValue (g + 5 + 1) _ = _
  conv_lhs => unfold parseJValue
  try dsimp only
  rw [skipWs_cons _ _ (by decide)]
  try dsimp only
  rw [if_neg (by decide), if_pos rfl, skipWs_encode]
  show parseJMembers (g + 3 + 2) _ _ = _
  rw [parseJMembers_num_cons (g + 3) _ e _ _ he1 he2, skipWs_encode]
  show (match parseJMembers (g + 2 + 2) _ _ with
    | some (JValue.jobj ms, rest5) =>
      some (JValue.jobj (("expireAt".toList, JValue.jnum (f64OfInt e)) :: ms), rest5)
    | _ => none) = _
  rw [parseJMembers_str_cons (g + 2), skipWs_encode,
    parseJMembers_str_last (g + 1)]

theorem unmarshalJSON_payload (d s : List Char) :
    unmarshalJSON (utf8Encode (marshalPayload d s)) =
      some (.jobj [("data".toList, JValue.jstr d), ("signature".toList, JValue.jstr s)]) := by
  unfold unmarshalJSON
  rw [utf8_roundtrip]
  try dsimp only
  obtain ⟨g, hg⟩ : ∃ g, 2 * (marshalPayload d s).length + 2 = g + 4 :=
    ⟨2 * (marshalPayload d s).length - 2, by
      have h1 : 1 ≤ (marshalPayload d s).length := by simp [marshalPayload]
      omega⟩
  rw [hg]
  have h := parseJValue_payload g d s []
  rw [List.append_nil] at h
  rw [h]
  rfl

theorem unmarshalStringMap_payload (d s : List Char) :
    unmarshalStringMap (utf8Encode (marshalPayload d s)) =
      some [("data".toList, d), ("signature".toList, s)] := by
  unfold unmarshalStringMap
  rw [unmarshalJSON_payload]
  rfl

theorem unmarshalJSON_sigdata (it md : List Char) (e : Int)
    (he1 : -(2 ^ 63) ≤ e) (he2 : e < 2 ^ 63) :
    unmarshalJSON (utf8Encode (marshalSigData it md e)) =
      some (.jobj [("expireAt".toList, JValue.jnum (f64OfInt e)),
        ("itemId".toList, JValue.jstr it), ("mediaId".toList, JValue.jstr md)]) := by
  unfold unmarshalJSON
  rw [utf8_roundtrip]
  try dsimp only
  obtain ⟨g, hg⟩ : ∃ g, 2 * (marshalSigData it md e).length + 2 = g + 6 :=
    ⟨2 * (marshalSigData it md e).length - 4, by
      have h1 : 2 ≤ (marshalSigData it md e).length := by
        simp [marshalSigData, encodeJString]
      omega⟩
  rw [hg]
  have h := parseJValue_sigdata g it md e [] he1 he2
  rw [List.append_nil] at h
  rw [h]
  rfl

theorem mapGetD_payload_data (x y : List Char) :
    mapGetD [("data".toList, x), ("signature".toList, y)] "data".toList = x := by rfl

theorem mapGetD_payload_sig (x y : List Char) :
    mapGetD [("data".toList, x), ("signature".toList, y)] "signature".toList = y := by rfl

theorem sigDecrypt_sigEncrypt (key : List Nat) (it md : List Char) (e : Int)
    (he1 : -(2 ^ 63) ≤ e) (he2 : e < 2 ^ 63) :
    sigDecrypt key (sigEncrypt key it md e) =
      some [("expireAt".toList, JValue.jnum (f64OfInt e)),
        ("itemId".toList, JValue.jstr it), ("mediaId".toList, JValue.jstr md)] := by
  unfold sigEncrypt sigDecrypt
  try dsimp only
  rw [b64_roundtrip _ (utf8Encode_lt256 _)]
  try dsimp only
  rw [unmarshalStringMap_payload]
  try dsimp only
  rw [mapGetD_payload_data, mapGetD_payload_sig]
  rw [b64_roundtrip _ (utf8Encode_lt256 _), b64_roundtrip _ (hmacSha256_lt256 _ _)]
  try dsimp only
  rw [if_pos rfl]
  rw [unmarshalJSON_sigdata it md e he1 he2]

theorem roundNatF64_exact (m : Nat) (hm : m < 2 ^ 53) :
    roundNatF64 m = some (m, 0) := by
  unfold roundNatF64
  try dsimp only
  rw [if_pos (bits_le_of_lt m 53 hm)]

theorem decimalToF64_exact (neg : Bool) (m : Nat) (hm : m < 2 ^ 53) :
    decimalToF64 neg m 0 =
      some ⟨if neg then -(m : Int) else (m : Int), 0⟩ := by
  unfold decimalToF64
  split
  · rename_i h0
    subst h0
    cases neg <;> rfl
  · rw [if_neg (by norm_num)]
    rw [if_neg (by
      push_neg
      have h1 : (0:Int) ≤ ((natDecChars m).length : Int) := by positivity
      omega)]
    rw [if_pos (le_refl (0:Int))]
    have h2 : m * 10 ^ ((0:Int).toNat) = m := by simp
    rw [h2, roundNatF64_exact m hm]

theorem f64OfInt_exact (e : Int) (he : e.natAbs < 2 ^ 53) :
    f64OfInt e = ⟨e, 0⟩ := by
  unfold f64OfInt
  rw [decimalToF64_exact _ _ he]
  have h1 : (if decide (e < 0) = true then -(e.natAbs : Int) else (e.natAbs : Int)) = e := by
    split_ifs with h
    · simp only [decide_eq_true_eq] at h
      omega
    · simp only [decide_eq_true_eq] at h
      omega
  simp only [h1]

theorem F64_val_int (e : Int) : F64.val ⟨e, 0⟩ = (e : ℚ) := by
  unfold F64.val
  norm_num

theorem F64_toInt64_int (e : Int) : F64.toInt64 ⟨e, 0⟩ = e := by
  unfold F64.toInt64
  norm_num

theorem f64OfInt_past53 : f64OfInt (2 ^ 53 + 1) = ⟨2 ^ 52, 1⟩ := by decide

/-- C3 counterexample: with the 16-byte key of forty-eight-valued bytes and
`expireAt = 2^53 + 1`, decrypting the encrypted token yields the `itemId` and
`mediaId` fields exactly, but the `expireAt` field comes back as the float64
`2^52 * 2^1 = 2^53`, which differs from the original `int64` value both as a
number and after the handler's `int64` conversion — so
`decrypt(encrypt(x)) == x` fails for this `x`. -/
theorem sigRoundtrip_expireAt_precision_loss :
    sigDecrypt (List.replicate 16 48)
        (sigEncrypt (List.replicate 16 48) "a".toList "b".toList (2 ^ 53 + 1)) =
      some [("expireAt".toList, JValue.jnum ⟨2 ^ 52, 1⟩),
        ("itemId".toList, JValue.jstr "a".toList),
        ("mediaId".toList, JValue.jstr "b".toList)] ∧
    F64.val ⟨2 ^ 52, 1⟩ ≠ ((2 ^ 53 + 1 : Int) : ℚ) ∧
    F64.toInt64 ⟨2 ^ 52, 1⟩ ≠ 2 ^ 53 + 1 := by
  refine ⟨?_, ?_, ?_⟩
  · have h := sigDecrypt_sigEncrypt (List.replicate 16 48) "a".toList "b".toList
      (2 ^ 53 + 1) (by norm_num) (by norm_num)
    rw [show f64OfInt (2 ^ 53 + 1) = ⟨2 ^ 52, 1⟩ from by decide] at h
    exact h
  · unfold F64.val
    norm_num
  · unfold F64.toInt64
    norm_num

/-- C3 (amended): decrypting an encrypted triple always recovers `itemId` and
`mediaId` exactly, and recovers `expireAt` as the float64 reading of its
decimal form; that float64 equals the original `int64` (in value and after
the handler's `int64` conversion) whenever its magnitude is below `2^53`,
but not in general. -/
theorem sigRoundtrip_fields (key : List Nat) (it md : List Char) (e : Int)
    (he1 : -(2 ^ 63) ≤ e) (he2 : e < 2 ^ 63) :
    sigDecrypt key (sigEncrypt key it md e) =
      some [("expireAt".toList, JValue.jnum (f64OfInt e)),
        ("itemId".toList, JValue.jstr it), ("mediaId".toList, JValue.jstr md)] ∧
    (e.natAbs < 2 ^ 53 → F64.val (f64OfInt e) = (e : ℚ) ∧ F64.toInt64 (f64OfInt e) = e) := by
  refine ⟨sigDecrypt_sigEncrypt key it md e he1 he2, fun h => ?_⟩
  rw [f64OfInt_exact e h]
  exact ⟨F64_val_int e, F64_toInt64_int e⟩

/-- Witness for the amended C3 theorem at the key of sixteen bytes of value
forty-eight, `itemId = "a"`, `mediaId = "b"` and `expireAt = 7`. -/
theorem sigRoundtrip_fields_witness :
    -(2 ^ 63) ≤ (7 : Int) ∧ (7 : Int) < 2 ^ 63 ∧
      (sigDecrypt (List.replicate 16 48)
          (sigEncrypt (List.replicate 16 48) "a".toList "b".toList 7) =
        some [("expireAt".toList, JValue.jnum (f64OfInt 7)),
          ("itemId".toList, JValue.jstr "a".toList),
          ("mediaId".toList, JValue.jstr "b".toList)] ∧
      ((7 : Int).natAbs < 2 ^ 53 →
        F64.val (f64OfInt 7) = ((7 : Int) : ℚ) ∧ F64.toInt64 (f64OfInt 7) = 7)) :=
  ⟨by decide, by decide,
    sigRoundtrip_fields (List.replicate 16 48) "a".toList "b".toList 7
      (by decide) (by decide)⟩

/-- C8: for every token whose decrypt succeeds and whose fields pass
validation (`itemId` and `mediaId` are non-empty strings, `expireAt` is a
number) but whose `expireAt`, read as seconds since the epoch, lies strictly
before the current time, `authenticate` answers 401 with the message
`Signature has expired` and `Remote` never invokes the stream engine; the
decrypt operation itself succeeds on such a token (expiry is checked only in
`authenticate`, after `Decrypt` has returned). -/
theorem authenticate_expired_no_stream (key : List Nat) (sig : List Char)
    (data : List (List Char × JValue)) (it md : List Char) (f : F64) (nowNs : Int)
    (hdec : sigDecrypt key sig = some data)
    (hit : asString (objGet data "itemId".toList) = some it)
    (hmd : asString (objGet data "mediaId".toList) = some md)
    (hex : asNumber (objGet data "expireAt".toList) = some f)
    (hitne : it ≠ [])
    (hmdne : md ≠ [])
    (hpast : F64.toInt64 f * 1000000000 < nowNs) :
    sigDecrypt key sig = some data ∧
      authenticate key sig nowNs = .unauthorized "Signature has expired".toList ∧
      remoteInvokesStream key sig nowNs = false := by
  have hauth : authenticate key sig nowNs =
      .unauthorized "Signature has expired".toList := by
    unfold authenticate
    rw [hdec]
    try dsimp only
    unfold authValidate
    rw [hit, hmd, hex]
    try dsimp only
    rw [if_neg hitne, if_neg hmdne, if_pos hpast]
  refine ⟨hdec, hauth, ?_⟩
  unfold remoteInvokesStream
  rw [hauth]

/-- Witness for the C8 theorem: an expired token built by the signature
service itself (key of sixteen bytes of value forty-eight, `itemId = "a"`,
`mediaId = "b"`, `expireAt = 0`) checked at `nowNs = 10^9`. -/
theorem authenticate_expired_no_stream_witness :
    sigDecrypt (List.replicate 16 48)
        (sigEncrypt (List.replicate 16 48) "a".toList "b".toList 0) =
      some [("expireAt".toList, JValue.jnum (f64OfInt 0)),
        ("itemId".toList, JValue.jstr "a".toList),
        ("mediaId".toList, JValue.jstr "b".toList)] ∧
    asString (objGet [("expireAt".toList, JValue.jnum (f64OfInt 0)),
        ("itemId".toList, JValue.jstr "a".toList),
        ("mediaId".toList, JValue.jstr "b".toList)] "itemId".toList) =
      some "a".toList ∧
    asString (objGet [("expireAt".toList, JValue.jnum (f64OfInt 0)),
        ("itemId".toList, JValue.jstr "a".toList),
        ("mediaId".toList, JValue.jstr "b".toList)] "mediaId".toList) =
      some "b".toList ∧
    asNumber (objGet [("expireAt".toList, JValue.jnum (f64OfInt 0)),
        ("itemId".toList, JValue.jstr "a".toList),
        ("mediaId".toList, JValue.jstr "b".toList)] "expireAt".toList) =
      some (f64OfInt 0) ∧
    "a".toList ≠ ([] : List Char) ∧
    "b".toList ≠ ([] : List Char) ∧
    F64.toInt64 (f64OfInt 0) * 1000000000 < 10 ^ 9 ∧
    (sigDecrypt (List.replicate 16 48)
        (sigEncrypt (List.replicate 16 48) "a".toList "b".toList 0) =
      some [("expireAt".toList, JValue.jnum (f64OfInt 0)),
        ("itemId".toList, JValue.jstr "a".toList),
        ("mediaId".toList, JValue.jstr "b".toList)] ∧
    authenticate (List.replicate 16 48)
        (sigEncrypt (List.replicate 16 48) "a".toList "b".toList 0) (10 ^ 9) =
      .unauthorized "Signature has expired".toList ∧
    remoteInvokesStream (List.replicate 16 48)
        (sigEncrypt (List.replicate 16 48) "a".toList "b".toList 0) (10 ^ 9) = false) := by
  have hdec := sigDecrypt_sigEncrypt (List.replicate 16 48) "a".toList "b".toList 0
    (by decide) (by decide)
  exact ⟨hdec, rfl, rfl, rfl, by decide, by decide, by decide,
    authenticate_expired_no_stream (List.replicate 16 48) _ _ _ _ _ (10 ^ 9)
      hdec rfl rfl rfl (by decide) (by decide) (by decide)⟩


/-- Witness for the C9 theorem: after one acquire of path 0 at time 0, the
cache holds the entry `(0, handle 0, refCount 1, lastUsed 0)`, and its
refcount is non-negative. -/
theorem refcount_never_negative_witness :
    (0, (⟨0, 1, 0⟩ : FileEntry)) ∈ (runOps [CacheOp.acq 0 0]).entries ∧
      (0 : Int) ≤ (⟨0, 1, 0⟩ : FileEntry).refCount :=
  ⟨by decide, refcount_never_negative [CacheOp.acq 0 0] (0, ⟨0, 1, 0⟩) (by decide)⟩

end PiliPili
